import Mathlib

/-!
# Verification of the `ts-serialize-closures` serialization engine and closure-capture pass

This development gives a shallow embedding of:

* `serialize-closures/src/serializedGraph.ts` — the `SerializedGraph` encoder
  (`add`, `serialize`, `serializeFunction`, `serializeObject`) and decoder (`get`),
* `serialize-closures/src/builtins.ts` — the registry lookups
  (`getNameOfBuiltin`, `getBuiltinByName`),
* `ts-closure-transform/src/box-mutable-captured-vars.ts` — the
  `MutableSharedVariableFinder` classifier,
* the `CapturedVariableScope` (`use` / `declare`) and `addClosurePropertyToLambda`
  from the closure-capture transform,

and proves the testable properties stated in the specification against them.

JavaScript values are modelled as either primitives or references (addresses)
into an explicit heap; reference equality (`===`) on objects is address equality,
and on primitives it is value equality.  JavaScript numbers are modelled by `Int`
(none of the verified properties depend on floating-point behaviour).
All recursive walks take an explicit fuel parameter; every recursive call
decrements the fuel, so running out of fuel (`none` / `.error .fuelExhausted`)
is an artifact of the embedding, distinct from the errors the code itself throws.
-/

namespace SC

/-- A JSON-style primitive value: `null`, `undefined`, booleans, numbers, strings.
These are exactly the values for which node's `util.isPrimitive` returns true. -/
inductive Prim where
  | vnull
  | vundef
  | vbool (b : Bool)
  | vnum (n : Int)
  | vstr (s : String)
deriving DecidableEq, Repr

/-- A JavaScript value: a primitive, or a reference to a heap object.
`Value` equality models JavaScript `===`: primitives compare by value,
objects compare by address (reference identity). -/
inductive Value where
  | prim (p : Prim)
  | ref (a : Nat)
deriving DecidableEq, Repr

/-- A heap object.  `func` carries the function's source text (`toString()`)
and, if a `__closure` accessor is attached, the key/value mapping that the
accessor would produce when invoked (`none` models a function with no
`__closure` property).  `stub` and `closureFn` are the objects created by the
decoder: the forwarding stub (whose `__impl` slot is patched after evaluation)
and the eval-produced implementation bound to its captured values.
`ext` is an opaque external object (e.g. a registered builtin). -/
inductive HObj where
  | arr (elems : List Value)
  | obj (props : List (String × Value))
  | func (source : String) (closure : Option (List (String × Value)))
  | date (iso : String)
  | stub (impl : Option Value)
  | closureFn (source : String) (captured : List (String × Value))
  | ext (tag : Nat)
deriving DecidableEq, Repr

/-- A heap: address `a` denotes the object at position `a`, if any. -/
abbrev Heap := List HObj

/-- A serialized node record, tagged by its `kind` discriminator.
`other k` stands for a record whose `kind` field is the string `k`,
where `k` is none of the recognized kinds. -/
inductive Node where
  | primitive (v : Prim)
  | arrN (refs : List Nat)
  | objN (refs : List (String × Nat))
  | funcN (source : String) (closure : Nat)
  | builtinN (name : String)
  | dateN (value : String)
  | other (kind : String)
deriving DecidableEq, Repr

/-- The kind strings the decoder recognizes (the dispatch chain in
`SerializedGraph.get`). -/
def recognizedKinds : List String :=
  ["primitive", "array", "object", "function", "builtin", "date"]

/-- A builtin registry: a list of `(name, value)` records
(`BuiltinList` in `builtins.ts`). -/
def BuiltinList := List (String × Value)

/-- `getNameOfBuiltin`: scan the registry in order and return the name of the
first record whose value is reference-equal (`===`) to `value`. -/
def getNameOfBuiltin (B : BuiltinList) (value : Value) : Option String :=
  match B with
  | [] => none
  | (name, builtin) :: rest =>
    if value = builtin then some name else getNameOfBuiltin rest value

/-- `getBuiltinByName`: scan the registry in order and return the value of the
first record carrying the requested name. -/
def getBuiltinByName (B : BuiltinList) (builtinName : String) : Option Value :=
  match B with
  | [] => none
  | (name, builtin) :: rest =>
    if name = builtinName then some builtin else getBuiltinByName rest builtinName

/-- The encoder/decoder memo table (`indexMap`): a list of
`(element, index)` entries, scanned in insertion order. -/
def IndexMap := List (Value × Nat)

/-- Scan the memo table for the first entry whose element is `===` to `v`
(the loop at the top of `SerializedGraph.add`). -/
def lookupIndex (v : Value) : List (Value × Nat) → Option Nat
  | [] => none
  | (w, i) :: rest => if w = v then some i else lookupIndex v rest

/-- Scan the memo table for the first entry carrying index `i`
(the loop at the top of `SerializedGraph.get`). -/
def lookupElem (i : Nat) : List (Value × Nat) → Option Value
  | [] => none
  | (w, j) :: rest => if j = i then some w else lookupElem i rest

/-- Encoder state: the memo table and the content array.
A `none` slot in the content array is the `undefined` placeholder pushed by
`add` before the node at that index has been computed. -/
structure EncState where
  indexMap : List (Value × Nat)
  contentArray : List (Option Node)
deriving DecidableEq, Repr

/-- The source text `toString()` yields for the decoder's forwarding stub
(abstracted: its exact characters play no role in any verified property). -/
def stubSource : String := "[stub source]"

/-- `JSON.stringify` applied to a date whose ISO rendering is `iso`
produces the quoted string; `JSON.parse` undoes the quoting. -/
def jsonQuote (iso : String) : String := "\"" ++ iso ++ "\""

/-- `JSON.parse` of a JSON string literal: strip the quotes. -/
def jsonUnquote (s : String) : String := (s.drop 1).dropRight 1

mutual

/-- `SerializedGraph.add`: look the value up in the memo table; on a hit return
the memoized index unchanged.  Otherwise reserve the next index (push an
`undefined` placeholder and the memo entry *before* recursing), serialize the
value, and store the resulting node at the reserved index. -/
def add (B : BuiltinList) (H : Heap) : Nat → EncState → Value → Option (EncState × Nat)
  | 0, _, _ => none
  | fuel + 1, st, v =>
    match lookupIndex v st.indexMap with
    | some i => some (st, i)
    | none =>
      let index := st.contentArray.length
      let st1 : EncState := ⟨st.indexMap ++ [(v, index)], st.contentArray ++ [none]⟩
      match serializeValue B H fuel st1 v with
      | none => none
      | some (st2, node) =>
        some (⟨st2.indexMap, st2.contentArray.set index (some node)⟩, index)

/-- `SerializedGraph.serialize`: check the builtin registry first; then
dispatch on the value's runtime type: primitive, array, function, date, and
finally generic object. -/
def serializeValue (B : BuiltinList) (H : Heap) :
    Nat → EncState → Value → Option (EncState × Node)
  | 0, _, _ => none
  | fuel + 1, st, v =>
    match getNameOfBuiltin B v with
    | some name => some (st, Node.builtinN name)
    | none =>
      match v with
      | Value.prim p => some (st, Node.primitive p)
      | Value.ref a =>
        match H[a]? with
        | none => none
        | some (HObj.arr elems) =>
          match addList B H fuel st elems with
          | none => none
          | some (st2, idxs) => some (st2, Node.arrN idxs)
        | some (HObj.obj props) =>
          match addProps B H fuel st props with
          | none => none
          | some (st2, rs) => some (st2, Node.objN rs)
        | some (HObj.func src clo) => serializeFunction B H fuel st src clo
        | some (HObj.stub _) => serializeFunction B H fuel st stubSource none
        | some (HObj.closureFn src _) => serializeFunction B H fuel st src none
        | some (HObj.date iso) => some (st, Node.dateN (jsonQuote iso))
        | some (HObj.ext _) =>
          match addProps B H fuel st [] with
          | none => none
          | some (st2, rs) => some (st2, Node.objN rs)

/-- `SerializedGraph.serializeFunction`: read the `__closure` accessor; when it
is absent, substitute `() => ({})`.  Then `add` the accessor's result.  The
accessor call produces a *fresh* object, never reference-equal to any memoized
value, so the memo lookup inside that `add` necessarily misses; we inline the
miss: reserve the next index and store the environment as an object node.
(The fresh object's own memo entry is omitted: no later lookup can match it.) -/
def serializeFunction (B : BuiltinList) (H : Heap) :
    Nat → EncState → String → Option (List (String × Value)) → Option (EncState × Node)
  | 0, _, _, _ => none
  | fuel + 1, st, src, clo =>
    let closureEnv := match clo with
      | none => []
      | some env => env
    let index := st.contentArray.length
    let st1 : EncState := ⟨st.indexMap, st.contentArray ++ [none]⟩
    match addProps B H fuel st1 closureEnv with
    | none => none
    | some (st2, rs) =>
      some (⟨st2.indexMap, st2.contentArray.set index (some (Node.objN rs))⟩,
        Node.funcN src index)

/-- `value.map(v => this.add(v))` over an array's elements. -/
def addList (B : BuiltinList) (H : Heap) :
    Nat → EncState → List Value → Option (EncState × List Nat)
  | 0, _, _ => none
  | _ + 1, st, [] => some (st, [])
  | fuel + 1, st, v :: rest =>
    match add B H fuel st v with
    | none => none
    | some (st1, i) =>
      match addList B H fuel st1 rest with
      | none => none
      | some (st2, is) => some (st2, i :: is)

/-- The `for (let key in value) result[key] = this.add(value[key])` loop of
`SerializedGraph.serializeObject`. -/
def addProps (B : BuiltinList) (H : Heap) :
    Nat → EncState → List (String × Value) → Option (EncState × List (String × Nat))
  | 0, _, _ => none
  | _ + 1, st, [] => some (st, [])
  | fuel + 1, st, (k, v) :: rest =>
    match add B H fuel st v with
    | none => none
    | some (st1, i) =>
      match addProps B H fuel st1 rest with
      | none => none
      | some (st2, rs) => some (st2, (k, i) :: rs)

end

/-- The JSON document produced by `toJSON`: a root index and the data array. -/
structure Doc where
  root : Nat
  data : List Node
deriving DecidableEq, Repr

/-- Collapse the content array once encoding is complete; every placeholder
has been overwritten by then, so all slots are `some`. -/
def flattenContent : List (Option Node) → Option (List Node)
  | [] => some []
  | none :: _ => none
  | some n :: rest =>
    match flattenContent rest with
    | none => none
    | some ns => some (n :: ns)

/-- `serialize(value, builtins).toJSON()`: run the encoder from an empty graph
and package the root index with the content array. -/
def serializeTop (B : BuiltinList) (H : Heap) (fuel : Nat) (v : Value) : Option Doc :=
  match add B H fuel ⟨[], []⟩ v with
  | none => none
  | some (st, i) =>
    match flattenContent st.contentArray with
    | none => none
    | some ns => some ⟨i, ns⟩

/-- Decoder errors.  `badIndex` models the `TypeError` raised by reading
`value.kind` off an `undefined` content-array slot; `unknownBuiltin` and
`unknownKind` are the two `throw new Error(...)` sites in `SerializedGraph.get`;
`fuelExhausted` is an artifact of the fuelled embedding, never thrown by the code. -/
inductive DErr where
  | fuelExhausted
  | badIndex (i : Nat)
  | unknownBuiltin (name : String)
  | unknownKind (kind : String)
deriving DecidableEq, Repr

/-- Decoder state: the memo table plus the arena of objects the decoder has
materialized (fresh JavaScript allocations, addressed by position). -/
structure DecState where
  indexMap : List (Value × Nat)
  heap : List HObj
deriving DecidableEq, Repr

/-- `results.push(v)` on the in-progress array allocated at address `a`. -/
def pushElem (h : List HObj) (a : Nat) (v : Value) : List HObj :=
  match h[a]? with
  | some (HObj.arr es) => h.set a (HObj.arr (es ++ [v]))
  | _ => h

/-- `results[key] = v` on the in-progress object allocated at address `a`.
(The keys come from a `for (let key in ...)` enumeration, which never repeats
a key, so plain append is the JavaScript assignment.) -/
def pushProp (h : List HObj) (a : Nat) (k : String) (v : Value) : List HObj :=
  match h[a]? with
  | some (HObj.obj ps) => h.set a (HObj.obj (ps ++ [(k, v)]))
  | _ => h

/-- The `for (let key in deserializedClosure)` enumeration used while decoding
a function record: own enumerable properties of the decoded closure value. -/
def enumerateProps (st : DecState) (v : Value) : List (String × Value) :=
  match v with
  | Value.prim _ => []
  | Value.ref a =>
    match st.heap[a]? with
    | some (HObj.obj props) => props
    | some (HObj.arr elems) => (elems.enum).map (fun p => (toString p.1, p.2))
    | some (HObj.stub (some w)) => [("__impl", w)]
    | _ => []

mutual

/-- `SerializedGraph.get`: look the index up in the memo table; on a hit return
the memoized element unchanged.  Otherwise dispatch on the record's `kind`,
registering an (unfinished) placeholder in the memo table *before* decoding
children wherever children exist. -/
def get (B : BuiltinList) (doc : List Node) :
    Nat → DecState → Nat → Except DErr (DecState × Value)
  | 0, _, _ => .error .fuelExhausted
  | fuel + 1, st, valueIndex =>
    match lookupElem valueIndex st.indexMap with
    | some element => .ok (st, element)
    | none =>
      match doc[valueIndex]? with
      | none => .error (.badIndex valueIndex)
      | some (Node.primitive p) =>
        .ok (⟨st.indexMap ++ [(Value.prim p, valueIndex)], st.heap⟩, Value.prim p)
      | some (Node.arrN refs) =>
        -- Push the (unfinished) array into the index map before decoding
        -- the elements, because the graph may contain cycles.
        let a := st.heap.length
        let st1 : DecState :=
          ⟨st.indexMap ++ [(Value.ref a, valueIndex)], st.heap ++ [HObj.arr []]⟩
        match getElems B doc fuel st1 a refs with
        | .error e => .error e
        | .ok st2 => .ok (st2, Value.ref a)
      | some (Node.objN prefs) =>
        -- Same placeholder discipline for objects.
        let a := st.heap.length
        let st1 : DecState :=
          ⟨st.indexMap ++ [(Value.ref a, valueIndex)], st.heap ++ [HObj.obj []]⟩
        match getProps B doc fuel st1 a prefs with
        | .error e => .error e
        | .ok st2 => .ok (st2, Value.ref a)
      | some (Node.funcN src cloIdx) =>
        -- Create a stub that forwards to its own `__impl` property, memoize
        -- it, decode the closure, evaluate the synthesized code, then patch
        -- the stub and overwrite the memo entry with the implementation.
        let s := st.heap.length
        let resultIndex := st.indexMap.length
        let st1 : DecState :=
          ⟨st.indexMap ++ [(Value.ref s, valueIndex)], st.heap ++ [HObj.stub none]⟩
        match get B doc fuel st1 cloIdx with
        | .error e => .error e
        | .ok (st2, cloVal) =>
          let capturedVars := enumerateProps st2 cloVal
          -- `eval(code).apply(undefined, capturedVarVals)`: produces a fresh
          -- function object implementing `src` with the captured mapping bound.
          let r := st2.heap.length
          let st3 : DecState := ⟨st2.indexMap, st2.heap ++ [HObj.closureFn src capturedVars]⟩
          let st4 : DecState :=
            ⟨st3.indexMap.set resultIndex (Value.ref r, valueIndex),
             st3.heap.set s (HObj.stub (some (Value.ref r)))⟩
          .ok (st4, Value.ref r)
      | some (Node.builtinN name) =>
        match getBuiltinByName B name with
        | none => .error (.unknownBuiltin name)
        | some builtin =>
          .ok (⟨st.indexMap ++ [(builtin, valueIndex)], st.heap⟩, builtin)
      | some (Node.dateN payload) =>
        let a := st.heap.length
        .ok (⟨st.indexMap ++ [(Value.ref a, valueIndex)],
              st.heap ++ [HObj.date (jsonUnquote payload)]⟩, Value.ref a)
      | some (Node.other k) => .error (.unknownKind k)

/-- The `for (let ref of value.refs) results.push(this.get(ref))` loop of the
array case: each decoded element is appended to the in-progress array at `a`. -/
def getElems (B : BuiltinList) (doc : List Node) :
    Nat → DecState → Nat → List Nat → Except DErr DecState
  | 0, _, _, _ => .error .fuelExhausted
  | _ + 1, st, _, [] => .ok st
  | fuel + 1, st, a, r :: rest =>
    match get B doc fuel st r with
    | .error e => .error e
    | .ok (st1, v) => getElems B doc fuel ⟨st1.indexMap, pushElem st1.heap a v⟩ a rest

/-- The `for (let key in value.refs) results[key] = this.get(value.refs[key])`
loop of the object case. -/
def getProps (B : BuiltinList) (doc : List Node) :
    Nat → DecState → Nat → List (String × Nat) → Except DErr DecState
  | 0, _, _, _ => .error .fuelExhausted
  | _ + 1, st, _, [] => .ok st
  | fuel + 1, st, a, (k, r) :: rest =>
    match get B doc fuel st r with
    | .error e => .error e
    | .ok (st1, v) => getProps B doc fuel ⟨st1.indexMap, pushProp st1.heap a k v⟩ a rest

end

/-- `SerializedGraph.fromJSON(doc, builtins).root`, keeping the final decoder
state so that theorems can speak about the materialized object graph. -/
def deserializeRun (B : BuiltinList) (doc : Doc) (fuel : Nat) :
    Except DErr (DecState × Value) :=
  get B doc.data fuel ⟨[], []⟩ doc.root

/-- `deserialize(doc, builtins)`: just the root value. -/
def deserializeTop (B : BuiltinList) (doc : Doc) (fuel : Nat) : Except DErr Value :=
  match deserializeRun B doc fuel with
  | .error e => .error e
  | .ok (_, v) => .ok v

/-- The address of the function object that a call through address `a`
ultimately executes: calling the decoder's stub runs
`stub.__impl.apply(this, arguments)`, i.e. the patched implementation;
calling an ordinary function object runs the object itself. -/
def callTarget (h : List HObj) (a : Nat) : Option Nat :=
  match h[a]? with
  | some (HObj.stub (some (Value.ref r))) => some r
  | some (HObj.closureFn _ _) => some a
  | some (HObj.func _ _) => some a
  | _ => none

/-!
## The closure-capture pass (`ts-closure-transform`)

`CapturedVariableScope` from the capture transform: one scope records the
names used (captured) in it and the names declared in it; a chain of scopes is
modelled innermost-first, so the head's parent is the second element.
-/

/-- One `CapturedVariableScope`: its `usedNames` and `declared` lists.
(`used` holds identifier nodes parallel to `usedNames`; the name lists carry
all the information the verified properties mention.) -/
structure CVScope where
  used : List String
  declared : List String
deriving DecidableEq, Repr

/-- `isCaptured`: `usedNames.indexOf(name.text) >= 0`, i.e. membership. -/
def CVScope.isCaptured (s : CVScope) (name : String) : Bool := decide (name ∈ s.used)

/-- `isDeclared`: `declared.indexOf(name.text) >= 0`, i.e. membership. -/
def CVScope.isDeclared (s : CVScope) (name : String) : Bool := decide (name ∈ s.declared)

/-- `CapturedVariableScope.use`, acting on the whole parent chain
(innermost scope first): if the name is already captured or declared here,
return; otherwise record it here and recurse into the parent. -/
def cvUse (name : String) : List CVScope → List CVScope
  | [] => []
  | s :: parents =>
    if s.isCaptured name || s.isDeclared name then s :: parents
    else { s with used := s.used ++ [name] } :: cvUse name parents

/-- `CapturedVariableScope.declare` on a single scope: if already declared,
return; otherwise record the declaration and — only when the declaration is
hoisted — splice out the previously recorded use of that name, if any. -/
def cvDeclare (name : String) (isHoisted : Bool) (s : CVScope) : CVScope :=
  if s.isDeclared name then s
  else
    { declared := s.declared ++ [name],
      used := if isHoisted then s.used.erase name else s.used }

/-- Index of the first scope in the chain that declares `name`
(`chain.length` if none does). -/
def declaredDepth (name : String) : List CVScope → Nat
  | [] => 0
  | s :: rest => if s.isDeclared name then 0 else declaredDepth name rest + 1

/-- The chain invariant every reachable scope chain satisfies: a name recorded
as used in a scope was propagated to its parent unless the parent declares it
(`use` pushes to the parent whenever it records locally, and `declare` never
removes a use without adding a declaration). -/
def WFChain (name : String) : List CVScope → Prop
  | [] => True
  | [_] => True
  | s :: s2 :: rest =>
    (name ∈ s.used → name ∈ s2.used ∨ name ∈ s2.declared) ∧ WFChain name (s2 :: rest)

/-!
`addClosurePropertyToLambda` and its helpers, over a fragment of the
expression AST sufficient to state what the rewrite produces.
-/

/-- A fragment of the TypeScript expression AST: an opaque lambda (identified
by a tag), a hoisted unique temporary, assignments, property accesses, the
synthesized `() => ({ a, b, ... })` closure lambda, and comma lists. -/
inductive Expr where
  | lambdaE (tag : Nat)
  | tempRef (n : Nat)
  | assignE (lhs rhs : Expr)
  | propAccess (target : Expr) (name : String)
  | closureLambda (captured : List String)
  | commaList (es : List Expr)

/-- `createClosureLambda`: the zero-argument arrow returning an object literal
with one shorthand property per captured variable. -/
def createClosureLambda (capturedVariables : List String) : Expr :=
  Expr.closureLambda capturedVariables

/-- `createClosurePropertyAssignment`: `<fn>.__closure = () => ({ ... })`. -/
def createClosurePropertyAssignment (closureFunction : Expr)
    (capturedVariables : List String) : Expr :=
  Expr.assignE (Expr.propAccess closureFunction "__closure")
    (createClosureLambda capturedVariables)

/-- `addClosurePropertyToLambda`: lambdas that capture nothing are returned
unchanged; otherwise produce
`(temp = <lambda>, temp.__closure = () => ({ ... }), temp)` where `temp` is a
fresh hoisted temporary. -/
def addClosurePropertyToLambda (temp : Nat) (lambda : Expr)
    (capturedVariables : List String) : Expr :=
  if capturedVariables.length = 0 then lambda
  else
    Expr.commaList
      [Expr.assignE (Expr.tempRef temp) lambda,
       createClosurePropertyAssignment (Expr.tempRef temp) capturedVariables,
       Expr.tempRef temp]

/-!
## The shared-mutable-variable finder (`box-mutable-captured-vars.ts`)

The `MutableSharedVariableFinder` receives a sequence of
`visitUse`/`visitDef`/`visitAssignment` callbacks from the `VariableVisitor`
traversal; each carries the variable id and the identity of
`this.scope.functionScope` at that moment.  We model the callback sequence as
a trace of events and the finder as a fold over it.
-/

/-- One classifier callback: a use, a definition, or an assignment of
variable `id` while the current function scope is `fscope`. -/
inductive VarEvent where
  | useE (id : Nat) (fscope : Nat)
  | defE (id : Nat) (fscope : Nat)
  | assignE (id : Nat) (fscope : Nat)
deriving DecidableEq, Repr

/-- JavaScript object-as-map lookup (`m[k]`). -/
def alGet {α : Type} (m : List (Nat × α)) (k : Nat) : Option α :=
  match m with
  | [] => none
  | (k2, v) :: rest => if k2 = k then some v else alGet rest k

/-- Lookup with a default. -/
def alGetD {α : Type} (m : List (Nat × α)) (k : Nat) (dflt : α) : α :=
  match alGet m k with
  | some v => v
  | none => dflt

/-- JavaScript object-as-map assignment (`m[k] = v`). -/
def alSet {α : Type} (m : List (Nat × α)) (k : Nat) (v : α) : List (Nat × α) :=
  match m with
  | [] => [(k, v)]
  | (k2, w) :: rest => if k2 = k then (k, v) :: rest else (k2, w) :: alSet rest k v

/-- JavaScript `delete m[k]` (keys are unique, as in a JavaScript object). -/
def alRemove {α : Type} (m : List (Nat × α)) (k : Nat) : List (Nat × α) :=
  match m with
  | [] => []
  | (k2, w) :: rest => if k2 = k then alRemove rest k else (k2, w) :: alRemove rest k

/-- The `MutableSharedVariableFinder`'s mutable fields. -/
structure FinderState where
  updateCounts : List (Nat × Nat)
  defScopes : List (Nat × Nat)
  pending : List (Nat × List Nat)
  sharedVars : List Nat
deriving DecidableEq, Repr

/-- `noteAppearanceIn`: if the recorded defining scope differs from the
appearance's function scope, mark the id as shared (deduplicated). -/
def noteAppearanceIn (st : FinderState) (id fscope : Nat) : FinderState :=
  if alGet st.defScopes id = some fscope then st
  else if id ∈ st.sharedVars then st
  else { st with sharedVars := st.sharedVars ++ [id] }

/-- `noteAppearance`: a defined id is compared against its defining scope at
once; an id with no definition yet has the appearance's function scope queued
as pending. -/
def noteAppearance (st : FinderState) (id fscope : Nat) : FinderState :=
  if (alGet st.defScopes id).isSome then noteAppearanceIn st id fscope
  else { st with pending := alSet st.pending id (alGetD st.pending id [] ++ [fscope]) }

/-- Flush the queued pending appearance scopes of `id` through
`noteAppearanceIn`. -/
def flushScopes (st : FinderState) (id : Nat) : List Nat → FinderState
  | [] => st
  | s :: rest => flushScopes (noteAppearanceIn st id s) id rest

/-- `visitDef`: record the defining function scope, then replay and delete any
pending appearances of the id. -/
def visitDefStep (st : FinderState) (id fscope : Nat) : FinderState :=
  let st1 : FinderState := { st with defScopes := alSet st.defScopes id fscope }
  match alGet st1.pending id with
  | none => st1
  | some scopes =>
    let st2 := flushScopes st1 id scopes
    { st2 with pending := alRemove st2.pending id }

/-- `visitAssignment`: an assignment is an appearance, and bumps the id's
update count. -/
def visitAssignmentStep (st : FinderState) (id fscope : Nat) : FinderState :=
  let st1 := noteAppearance st id fscope
  { st1 with updateCounts := alSet st1.updateCounts id (alGetD st1.updateCounts id 0 + 1) }

/-- Dispatch one classifier callback. -/
def finderStep (st : FinderState) : VarEvent → FinderState
  | .useE id s => noteAppearance st id s
  | .defE id s => visitDefStep st id s
  | .assignE id s => visitAssignmentStep st id s

/-- Run the finder over a whole traversal, from its freshly constructed
(empty) state. -/
def runFinder (trace : List VarEvent) : FinderState :=
  trace.foldl finderStep ⟨[], [], [], []⟩

/-- The `mutableSharedVariables` getter: the shared ids whose update count
exceeds one. -/
def mutableSharedVariables (st : FinderState) : List Nat :=
  st.sharedVars.filter (fun id => alGetD st.updateCounts id 0 > 1)

/-- `createVisitor`: the analyzer runs first, and exactly its
`mutableSharedVariables` are handed to the `VariableBoxingVisitor` as the
`variablesToBox` list. -/
def variablesToBox (trace : List VarEvent) : List Nat :=
  mutableSharedVariables (runFinder trace)

/-- Whether event `e` is a read-or-write appearance of `id` from function
scope `s` (definitions are not appearances). -/
def appears (e : VarEvent) (id s : Nat) : Bool :=
  match e with
  | .useE i s2 => i = id && s2 = s
  | .assignE i s2 => i = id && s2 = s
  | .defE _ _ => false

/-- The number of assignments to `id` in the trace. -/
def countAssigns (trace : List VarEvent) (id : Nat) : Nat :=
  (trace.filter (fun e => match e with | .assignE i _ => i = id | _ => false)).length

/-- Some event of the trace is a read-or-write appearance of `id` from
function scope `s`. -/
def appearsIn (t : List VarEvent) (id s : Nat) : Prop :=
  ∃ e ∈ t, appears e id s = true

/-- The trace contains a definition of `id`. -/
def hasDef (t : List VarEvent) (id : Nat) : Prop :=
  ∃ d, VarEvent.defE id d ∈ t

/-- The defining function scopes the trace records for `id` (a well-scoped
program records exactly one). -/
def defScopesOf (t : List VarEvent) (id : Nat) : List Nat :=
  t.filterMap (fun e => match e with
    | VarEvent.defE i d => if i = id then some d else none
    | _ => none)

/-- The relation between the finder's state and the trace prefix it has
processed, for one variable `id`: the recorded defining scope is exactly the
trace's definition; `id` is marked shared exactly when it is defined and some
appearance comes from a different function scope; the pending queue holds
exactly the appearance scopes seen before any definition; and the update
count is the number of assignments. -/
def FinderInv (id : Nat) (t : List VarEvent) (st : FinderState) : Prop :=
  (∀ d, VarEvent.defE id d ∈ t → alGet st.defScopes id = some d) ∧
  (∀ d, alGet st.defScopes id = some d → VarEvent.defE id d ∈ t) ∧
  (id ∈ st.sharedVars ↔
    ∃ d, VarEvent.defE id d ∈ t ∧ ∃ s, appearsIn t id s ∧ s ≠ d) ∧
  (¬ hasDef t id → ∀ s, s ∈ alGetD st.pending id [] ↔ appearsIn t id s) ∧
  (hasDef t id → alGet st.pending id = none) ∧
  alGetD st.updateCounts id 0 = countAssigns t id

/-!
## A family of cyclic object graphs

`chainHeap n` is a cycle of `n` objects: object `k` has one property `"next"`
referring to object `(k+1) % n`, so object `n-1` refers back to object `0`.
`n = 1` is a direct self-reference; larger `n` are transitive cycles.
-/

/-- A cyclic chain of `n` objects in the source heap. -/
def chainHeap (n : Nat) : Heap :=
  (List.range n).map (fun k => HObj.obj [("next", Value.ref ((k + 1) % n))])

/-- The serialized document the encoder produces for `chainHeap n`. -/
def chainDoc (n : Nat) : List Node :=
  (List.range n).map (fun k => Node.objN [("next", (k + 1) % n)])

/-- The memo table mapping the `n` decoded objects to their indices. -/
def chainMemo (n : Nat) : List (Value × Nat) :=
  (List.range n).map (fun k => (Value.ref k, k))

/-- The encoder state upon entering the chain object `k`: objects `0..k-1`
are reserved (memoized, placeholder slots) but not yet filled in. -/
def chainEncSt (k : Nat) : EncState :=
  ⟨(List.range k).map (fun j => (Value.ref j, j)), List.replicate k none⟩

/-- The encoder state after the subtree rooted at chain object `k` has been
serialized: slots `k..n-1` are filled, slots `0..k-1` still hold placeholders. -/
def chainEncAfter (n k : Nat) : EncState :=
  ⟨(List.range n).map (fun j => (Value.ref j, j)),
   (List.range n).map
     (fun j => if j < k then none else some (Node.objN [("next", (j + 1) % n)]))⟩

/-- The decoder state upon entering chain index `k`: objects `0..k-1` are
allocated (memoized) but their `"next"` property is not yet attached. -/
def chainDecSt (k : Nat) : DecState :=
  ⟨(List.range k).map (fun j => (Value.ref j, j)), List.replicate k (HObj.obj [])⟩

/-- The decoder state after the subtree rooted at chain index `k` has been
decoded. -/
def chainDecAfter (n k : Nat) : DecState :=
  ⟨(List.range n).map (fun j => (Value.ref j, j)),
   (List.range n).map
     (fun j => if j < k then HObj.obj []
      else HObj.obj [("next", Value.ref ((j + 1) % n))])⟩

/-- Follow the `"next"` property `steps` times starting from address `a`. -/
def followNext (h : List HObj) : Nat → Nat → Option Nat
  | 0, a => some a
  | steps + 1, a =>
    match h[a]? with
    | some (HObj.obj [("next", Value.ref b)]) => followNext h steps b
    | _ => none

/-!
## Helper lemmas
-/

theorem lookupIndex_append_some {v : Value} {m m2 : List (Value × Nat)} {i : Nat}
    (h : lookupIndex v m = some i) : lookupIndex v (m ++ m2) = some i := by
  induction m with
  | nil => simp [lookupIndex] at h
  | cons hd tl ih =>
    obtain ⟨w, j⟩ := hd
    by_cases hw : w = v
    · simp [lookupIndex, hw] at h ⊢; exact h
    · simp [lookupIndex, hw] at h ⊢; exact ih h

theorem lookupIndex_append_none {v : Value} {m : List (Value × Nat)} (m2 : List (Value × Nat))
    (h : lookupIndex v m = none) : lookupIndex v (m ++ m2) = lookupIndex v m2 := by
  induction m with
  | nil => simp
  | cons hd tl ih =>
    obtain ⟨w, j⟩ := hd
    by_cases hw : w = v
    · simp [lookupIndex, hw] at h
    · simp [lookupIndex, hw] at h ⊢; exact ih h

theorem lookupElem_append_some {i : Nat} {m m2 : List (Value × Nat)} {v : Value}
    (h : lookupElem i m = some v) : lookupElem i (m ++ m2) = some v := by
  induction m with
  | nil => simp [lookupElem] at h
  | cons hd tl ih =>
    obtain ⟨w, j⟩ := hd
    by_cases hj : j = i
    · simp [lookupElem, hj] at h ⊢; exact h
    · simp [lookupElem, hj] at h ⊢; exact ih h

theorem lookupElem_append_none {i : Nat} {m : List (Value × Nat)} (m2 : List (Value × Nat))
    (h : lookupElem i m = none) : lookupElem i (m ++ m2) = lookupElem i m2 := by
  induction m with
  | nil => simp
  | cons hd tl ih =>
    obtain ⟨w, j⟩ := hd
    by_cases hj : j = i
    · simp [lookupElem, hj] at h
    · simp [lookupElem, hj] at h ⊢; exact ih h

theorem set_append_cons {α : Type} (l : List α) (x y : α) (t : List α) :
    (l ++ x :: t).set l.length y = l ++ y :: t := by
  induction l with
  | nil => rfl
  | cons a l ih => simp [List.set, ih]

theorem flattenContent_eq {l : List (Option Node)} {ns : List Node}
    (h : flattenContent l = some ns) : l = ns.map some := by
  induction l generalizing ns with
  | nil =>
    simp only [flattenContent, Option.some.injEq] at h
    subst h; rfl
  | cons o rest ih =>
    cases o with
    | none => simp [flattenContent] at h
    | some n =>
      simp only [flattenContent] at h
      split at h
      · simp at h
      · rename_i ns2 hr
        simp only [Option.some.injEq] at h
        subst h
        simp [ih hr]

theorem pushElem_length (h : List HObj) (a : Nat) (v : Value) :
    (pushElem h a v).length = h.length := by
  unfold pushElem; split <;> simp

theorem pushElem_get_ne (h : List HObj) (a : Nat) (v : Value) (k : Nat) (hk : k ≠ a) :
    (pushElem h a v)[k]? = h[k]? := by
  unfold pushElem; split <;> first
    | rfl
    | exact List.getElem?_set_ne (fun he => hk he.symm)

theorem pushProp_length (h : List HObj) (a : Nat) (key : String) (v : Value) :
    (pushProp h a key v).length = h.length := by
  unfold pushProp; split <;> simp

theorem pushProp_get_ne (h : List HObj) (a : Nat) (key : String) (v : Value) (k : Nat)
    (hk : k ≠ a) : (pushProp h a key v)[k]? = h[k]? := by
  unfold pushProp; split <;> first
    | rfl
    | exact List.getElem?_set_ne (fun he => hk he.symm)

/-- Encoder invariant: every encoder routine only appends to the memo table,
never shrinks the content array, and a successful `add` leaves its value
memoized at the returned index — so a later `add` of the same (`===`) value
returns the same index without re-serializing. -/
theorem enc_meta (B : BuiltinList) (H : Heap) : ∀ fuel : Nat,
    (∀ st v st2 i, add B H fuel st v = some (st2, i) →
      (∃ t, st2.indexMap = st.indexMap ++ t) ∧
      st.contentArray.length ≤ st2.contentArray.length ∧
      lookupIndex v st2.indexMap = some i) ∧
    (∀ st v st2 nd, serializeValue B H fuel st v = some (st2, nd) →
      (∃ t, st2.indexMap = st.indexMap ++ t) ∧
      st.contentArray.length ≤ st2.contentArray.length) ∧
    (∀ st src clo st2 nd, serializeFunction B H fuel st src clo = some (st2, nd) →
      (∃ t, st2.indexMap = st.indexMap ++ t) ∧
      st.contentArray.length ≤ st2.contentArray.length) ∧
    (∀ st l st2 is, addList B H fuel st l = some (st2, is) →
      (∃ t, st2.indexMap = st.indexMap ++ t) ∧
      st.contentArray.length ≤ st2.contentArray.length) ∧
    (∀ st l st2 rs, addProps B H fuel st l = some (st2, rs) →
      (∃ t, st2.indexMap = st.indexMap ++ t) ∧
      st.contentArray.length ≤ st2.contentArray.length) := by
  intro fuel
  induction fuel with
  | zero =>
    refine ⟨fun st v st2 i h => ?_, fun st v st2 nd h => ?_,
      fun st src clo st2 nd h => ?_, fun st l st2 is h => ?_, fun st l st2 rs h => ?_⟩ <;>
      simp [add, serializeValue, serializeFunction, addList, addProps] at h
  | succ fuel ih =>
    obtain ⟨ihAdd, ihSer, ihFun, ihList, ihProps⟩ := ih
    refine ⟨?_, ?_, ?_, ?_, ?_⟩
    -- add
    · intro st v st2 i h
      simp only [add] at h
      split at h
      · rename_i j hl
        simp only [Option.some.injEq, Prod.mk.injEq] at h
        obtain ⟨rfl, rfl⟩ := h
        exact ⟨⟨[], by simp⟩, le_refl _, hl⟩
      · rename_i hl
        split at h
        · simp at h
        · rename_i stx node hs
          simp only [Option.some.injEq, Prod.mk.injEq] at h
          obtain ⟨rfl, rfl⟩ := h
          obtain ⟨⟨t, ht⟩, hlen⟩ := ihSer _ _ _ _ hs
          simp only at ht hlen ⊢
          refine ⟨⟨(v, st.contentArray.length) :: t, by simp [ht]⟩, ?_, ?_⟩
          · calc st.contentArray.length ≤ (st.contentArray ++ [none]).length := by simp
              _ ≤ stx.contentArray.length := hlen
              _ = (stx.contentArray.set st.contentArray.length (some node)).length := by simp
          · rw [ht, List.append_assoc, lookupIndex_append_none _ hl]
            simp [lookupIndex]
    -- serializeValue
    · intro st v st2 nd h
      simp only [serializeValue] at h
      split at h
      · rename_i name hb
        simp only [Option.some.injEq, Prod.mk.injEq] at h
        obtain ⟨rfl, rfl⟩ := h
        exact ⟨⟨[], by simp⟩, le_refl _⟩
      · rename_i hb
        split at h
        · rename_i p
          simp only [Option.some.injEq, Prod.mk.injEq] at h
          obtain ⟨rfl, rfl⟩ := h
          exact ⟨⟨[], by simp⟩, le_refl _⟩
        · rename_i a
          split at h
          · simp at h
          · rename_i elems hg
            split at h
            · simp at h
            · rename_i stx idxs hcl
              simp only [Option.some.injEq, Prod.mk.injEq] at h
              obtain ⟨rfl, rfl⟩ := h
              exact ihList _ _ _ _ hcl
          · rename_i props hg
            split at h
            · simp at h
            · rename_i stx rs hcl
              simp only [Option.some.injEq, Prod.mk.injEq] at h
              obtain ⟨rfl, rfl⟩ := h
              exact ihProps _ _ _ _ hcl
          · rename_i src clo hg
            exact ihFun _ _ _ _ _ h
          · rename_i impl hg
            exact ihFun _ _ _ _ _ h
          · rename_i src cap hg
            exact ihFun _ _ _ _ _ h
          · rename_i iso hg
            simp only [Option.some.injEq, Prod.mk.injEq] at h
            obtain ⟨rfl, rfl⟩ := h
            exact ⟨⟨[], by simp⟩, le_refl _⟩
          · rename_i tag hg
            split at h
            · simp at h
            · rename_i stx rs hcl
              simp only [Option.some.injEq, Prod.mk.injEq] at h
              obtain ⟨rfl, rfl⟩ := h
              exact ihProps _ _ _ _ hcl
    -- serializeFunction
    · intro st src clo st2 nd h
      simp only [serializeFunction] at h
      split at h
      · simp at h
      · rename_i stx rs hcl
        simp only [Option.some.injEq, Prod.mk.injEq] at h
        obtain ⟨rfl, rfl⟩ := h
        obtain ⟨⟨t, ht⟩, hlen⟩ := ihProps _ _ _ _ hcl
        simp only at ht hlen ⊢
        refine ⟨⟨t, ht⟩, ?_⟩
        calc st.contentArray.length ≤ (st.contentArray ++ [none]).length := by simp
          _ ≤ stx.contentArray.length := hlen
          _ = _ := by simp
    -- addList
    · intro st l st2 is h
      cases l with
      | nil =>
        simp only [addList, Option.some.injEq, Prod.mk.injEq] at h
        obtain ⟨rfl, rfl⟩ := h
        exact ⟨⟨[], by simp⟩, le_refl _⟩
      | cons v rest =>
        simp only [addList] at h
        split at h
        · simp at h
        · rename_i st1 i ha
          split at h
          · simp at h
          · rename_i stx is2 hr
            simp only [Option.some.injEq, Prod.mk.injEq] at h
            obtain ⟨rfl, rfl⟩ := h
            obtain ⟨⟨t1, ht1⟩, hlen1, _⟩ := ihAdd _ _ _ _ ha
            obtain ⟨⟨t2, ht2⟩, hlen2⟩ := ihList _ _ _ _ hr
            exact ⟨⟨t1 ++ t2, by rw [ht2, ht1, List.append_assoc]⟩, le_trans hlen1 hlen2⟩
    -- addProps
    · intro st l st2 rs h
      cases l with
      | nil =>
        simp only [addProps, Option.some.injEq, Prod.mk.injEq] at h
        obtain ⟨rfl, rfl⟩ := h
        exact ⟨⟨[], by simp⟩, le_refl _⟩
      | cons kv rest =>
        obtain ⟨k, v⟩ := kv
        simp only [addProps] at h
        split at h
        · simp at h
        · rename_i st1 i ha
          split at h
          · simp at h
          · rename_i stx rs2 hr
            simp only [Option.some.injEq, Prod.mk.injEq] at h
            obtain ⟨rfl, rfl⟩ := h
            obtain ⟨⟨t1, ht1⟩, hlen1, _⟩ := ihAdd _ _ _ _ ha
            obtain ⟨⟨t2, ht2⟩, hlen2⟩ := ihProps _ _ _ _ hr
            exact ⟨⟨t1 ++ t2, by rw [ht2, ht1, List.append_assoc]⟩, le_trans hlen1 hlen2⟩

/-- Decoder invariant: every decoder routine only appends to the memo table
(up to the function case's in-place overwrite of its own freshly pushed
entry), preserves all previously materialized heap cells (`getElems` and
`getProps` additionally touch only their own target cell), and a successful
`get` leaves the returned value memoized for its index — so a later `get` of
the same index returns the identical value. -/
theorem dec_meta (B : BuiltinList) (doc : List Node) : ∀ fuel : Nat,
    (∀ st idx st2 v, get B doc fuel st idx = .ok (st2, v) →
      (∃ t, st2.indexMap = st.indexMap ++ t) ∧
      lookupElem idx st2.indexMap = some v ∧
      (∀ k, k < st.heap.length → st2.heap[k]? = st.heap[k]?) ∧
      st.heap.length ≤ st2.heap.length) ∧
    (∀ st a refs st2, getElems B doc fuel st a refs = .ok st2 →
      (∃ t, st2.indexMap = st.indexMap ++ t) ∧
      (∀ k, k < st.heap.length → k ≠ a → st2.heap[k]? = st.heap[k]?) ∧
      st.heap.length ≤ st2.heap.length) ∧
    (∀ st a prefs st2, getProps B doc fuel st a prefs = .ok st2 →
      (∃ t, st2.indexMap = st.indexMap ++ t) ∧
      (∀ k, k < st.heap.length → k ≠ a → st2.heap[k]? = st.heap[k]?) ∧
      st.heap.length ≤ st2.heap.length) := by
  intro fuel
  induction fuel with
  | zero =>
    refine ⟨fun st idx st2 v h => ?_, fun st a refs st2 h => ?_, fun st a prefs st2 h => ?_⟩ <;>
      simp [get, getElems, getProps] at h
  | succ fuel ih =>
    obtain ⟨ihGet, ihElems, ihProps2⟩ := ih
    refine ⟨?_, ?_, ?_⟩
    -- get
    · intro st idx st2 v h
      simp only [get] at h
      split at h
      · rename_i el hl
        simp only [Except.ok.injEq, Prod.mk.injEq] at h
        obtain ⟨rfl, rfl⟩ := h
        exact ⟨⟨[], by simp⟩, hl, fun k _ => rfl, le_refl _⟩
      · rename_i hl
        split at h
        · simp at h
        -- primitive
        · rename_i p hn
          simp only [Except.ok.injEq, Prod.mk.injEq] at h
          obtain ⟨rfl, rfl⟩ := h
          refine ⟨⟨[(Value.prim p, idx)], rfl⟩, ?_, fun k _ => rfl, le_refl _⟩
          rw [lookupElem_append_none _ hl]; simp [lookupElem]
        -- array
        · rename_i refs hn
          split at h
          · simp at h
          · rename_i stx hge
            simp only [Except.ok.injEq, Prod.mk.injEq] at h
            obtain ⟨rfl, rfl⟩ := h
            obtain ⟨⟨t, ht⟩, hpres, hlen⟩ := ihElems _ _ _ _ hge
            simp only at ht hpres hlen
            constructor
            · exact ⟨(Value.ref st.heap.length, idx) :: t, by rw [ht]; simp⟩
            refine ⟨?_, ?_, ?_⟩
            · rw [ht, show st.indexMap ++ [(Value.ref st.heap.length, idx)] ++ t =
                st.indexMap ++ ((Value.ref st.heap.length, idx) :: t) by simp,
                lookupElem_append_none _ hl]
              simp [lookupElem]
            · intro k hk
              rw [hpres k (by simp; omega) (by omega)]
              rw [List.getElem?_append]
              simp [hk]
            · calc st.heap.length ≤ st.heap.length + 1 := by omega
                _ = (st.heap ++ [HObj.arr []]).length := by simp
                _ ≤ stx.heap.length := hlen
        -- object
        · rename_i prefs hn
          split at h
          · simp at h
          · rename_i stx hge
            simp only [Except.ok.injEq, Prod.mk.injEq] at h
            obtain ⟨rfl, rfl⟩ := h
            obtain ⟨⟨t, ht⟩, hpres, hlen⟩ := ihProps2 _ _ _ _ hge
            simp only at ht hpres hlen
            constructor
            · exact ⟨(Value.ref st.heap.length, idx) :: t, by rw [ht]; simp⟩
            refine ⟨?_, ?_, ?_⟩
            · rw [ht, show st.indexMap ++ [(Value.ref st.heap.length, idx)] ++ t =
                st.indexMap ++ ((Value.ref st.heap.length, idx) :: t) by simp,
                lookupElem_append_none _ hl]
              simp [lookupElem]
            · intro k hk
              rw [hpres k (by simp; omega) (by omega)]
              rw [List.getElem?_append]
              simp [hk]
            · calc st.heap.length ≤ st.heap.length + 1 := by omega
                _ = (st.heap ++ [HObj.obj []]).length := by simp
                _ ≤ stx.heap.length := hlen
        -- function
        · rename_i src cloIdx hn
          split at h
          · simp at h
          · rename_i stx cloVal hclo
            simp only [Except.ok.injEq, Prod.mk.injEq] at h
            obtain ⟨rfl, rfl⟩ := h
            obtain ⟨⟨t, ht⟩, hlk, hpres, hlen⟩ := ihGet _ _ _ _ hclo
            simp only at ht hlk hpres hlen
            have hlen1 : st.heap.length + 1 ≤ stx.heap.length := by
              simpa using hlen
            have hmap : stx.indexMap.set st.indexMap.length
                (Value.ref stx.heap.length, idx) =
                st.indexMap ++ ((Value.ref stx.heap.length, idx) :: t) := by
              rw [ht, List.append_assoc]
              exact set_append_cons st.indexMap _ _ t
            refine ⟨⟨(Value.ref stx.heap.length, idx) :: t, hmap⟩, ?_, ?_, ?_⟩
            · rw [hmap, lookupElem_append_none _ hl]
              simp [lookupElem]
            · intro k hk
              have hks : k ≠ st.heap.length := by omega
              have hkx : k < stx.heap.length := by omega
              rw [List.getElem?_set_ne (fun he => hks he.symm),
                List.getElem?_append]
              simp only [hkx, if_pos (by simpa using hkx)]
              rw [hpres k (by simp; omega)]
              rw [List.getElem?_append]
              simp [hk]
            · simp only [List.length_set, List.length_append]
              omega
        -- builtin
        · rename_i name hn
          split at h
          · simp at h
          · rename_i builtin hb
            simp only [Except.ok.injEq, Prod.mk.injEq] at h
            obtain ⟨rfl, rfl⟩ := h
            refine ⟨⟨[(builtin, idx)], rfl⟩, ?_, fun k _ => rfl, le_refl _⟩
            rw [lookupElem_append_none _ hl]; simp [lookupElem]
        -- date
        · rename_i payload hn
          simp only [Except.ok.injEq, Prod.mk.injEq] at h
          obtain ⟨rfl, rfl⟩ := h
          refine ⟨⟨[(Value.ref st.heap.length, idx)], rfl⟩, ?_, ?_, by simp⟩
          · rw [lookupElem_append_none _ hl]; simp [lookupElem]
          · intro k hk
            rw [List.getElem?_append]
            simp [hk]
        -- other
        · simp at h
    -- getElems
    · intro st a refs st2 h
      cases refs with
      | nil =>
        simp only [getElems, Except.ok.injEq] at h
        subst h
        exact ⟨⟨[], by simp⟩, fun k _ _ => rfl, le_refl _⟩
      | cons r rest =>
        simp only [getElems] at h
        split at h
        · simp at h
        · rename_i st1 v hg
          obtain ⟨⟨t1, ht1⟩, _, hpres1, hlen1⟩ := ihGet _ _ _ _ hg
          obtain ⟨⟨t2, ht2⟩, hpres2, hlen2⟩ := ihElems _ _ _ _ h
          simp only at ht2 hpres2 hlen2
          refine ⟨⟨t1 ++ t2, by rw [ht2, ht1, List.append_assoc]⟩, ?_, ?_⟩
          · intro k hk hka
            rw [hpres2 k (by rw [pushElem_length]; omega) hka,
              pushElem_get_ne _ _ _ _ hka, hpres1 k hk]
          · calc st.heap.length ≤ st1.heap.length := hlen1
              _ = (pushElem st1.heap a v).length := (pushElem_length _ _ _).symm
              _ ≤ st2.heap.length := hlen2
    -- getProps
    · intro st a prefs st2 h
      cases prefs with
      | nil =>
        simp only [getProps, Except.ok.injEq] at h
        subst h
        exact ⟨⟨[], by simp⟩, fun k _ _ => rfl, le_refl _⟩
      | cons kr rest =>
        obtain ⟨key, r⟩ := kr
        simp only [getProps] at h
        split at h
        · simp at h
        · rename_i st1 v hg
          obtain ⟨⟨t1, ht1⟩, _, hpres1, hlen1⟩ := ihGet _ _ _ _ hg
          obtain ⟨⟨t2, ht2⟩, hpres2, hlen2⟩ := ihProps2 _ _ _ _ h
          simp only at ht2 hpres2 hlen2
          refine ⟨⟨t1 ++ t2, by rw [ht2, ht1, List.append_assoc]⟩, ?_, ?_⟩
          · intro k hk hka
            rw [hpres2 k (by rw [pushProp_length]; omega) hka,
              pushProp_get_ne _ _ _ _ _ hka, hpres1 k hk]
          · calc st.heap.length ≤ st1.heap.length := hlen1
              _ = (pushProp st1.heap a key v).length := (pushProp_length _ _ _ _).symm
              _ ≤ st2.heap.length := hlen2

/-- A successful `add` memoizes its value at the returned index. -/
theorem add_lookup_after {B : BuiltinList} {H : Heap} {fuel : Nat} {st : EncState}
    {v : Value} {st2 : EncState} {i : Nat} (h : add B H fuel st v = some (st2, i)) :
    lookupIndex v st2.indexMap = some i :=
  ((enc_meta B H fuel).1 _ _ _ _ h).2.2

/-- A memo hit: `add` on a memoized value returns the stored index with the
state untouched. -/
theorem add_memo_hit (B : BuiltinList) (H : Heap) (fuel : Nat) (st : EncState)
    (v : Value) (i : Nat) (h : lookupIndex v st.indexMap = some i) :
    add B H (fuel + 1) st v = some (st, i) := by
  simp [add, h]

/-- A successful `get` memoizes the returned value for its index. -/
theorem get_lookup_after {B : BuiltinList} {doc : List Node} {fuel : Nat} {st : DecState}
    {idx : Nat} {st2 : DecState} {v : Value} (h : get B doc fuel st idx = .ok (st2, v)) :
    lookupElem idx st2.indexMap = some v :=
  ((dec_meta B doc fuel).1 _ _ _ _ h).2.1

/-- Decoding the same index again returns the identical (reference-equal)
value with the state untouched. -/
theorem get_stable {B : BuiltinList} {doc : List Node} {fuel : Nat} {st : DecState}
    {idx : Nat} {st2 : DecState} {v : Value} (fuel2 : Nat)
    (h : get B doc fuel st idx = .ok (st2, v)) :
    get B doc (fuel2 + 1) st2 idx = .ok (st2, v) := by
  simp [get, get_lookup_after h]

/-- A memo hit in the decoder, regardless of the heap component. -/
theorem get_memo_hit (B : BuiltinList) (doc : List Node) (fuel : Nat) (st : DecState)
    (idx : Nat) (v : Value) (h : lookupElem idx st.indexMap = some v) :
    get B doc (fuel + 1) st idx = .ok (st, v) := by
  simp [get, h]

theorem range_map_get {α : Type} (g : Nat → α) (n j : Nat) :
    ((List.range n).map g)[j]? = if j < n then some (g j) else none := by
  by_cases hj : j < n
  · simp [List.getElem?_map, List.getElem?_range hj, hj]
  · rw [List.getElem?_eq_none (by simpa using Nat.le_of_not_lt hj)]
    simp [hj]

theorem flattenContent_map_some (ns : List Node) :
    flattenContent (ns.map some) = some ns := by
  induction ns with
  | nil => rfl
  | cons n rest ih => simp [flattenContent, ih]

theorem chainHeap_get (n k : Nat) (hk : k < n) :
    (chainHeap n)[k]? = some (HObj.obj [("next", Value.ref ((k + 1) % n))]) := by
  simp [chainHeap, List.getElem?_map, List.getElem?_range hk]

theorem chainDoc_get (n k : Nat) (hk : k < n) :
    (chainDoc n)[k]? = some (Node.objN [("next", (k + 1) % n)]) := by
  simp [chainDoc, List.getElem?_map, List.getElem?_range hk]

theorem lookupIndex_chain (k j : Nat) :
    lookupIndex (Value.ref j) ((List.range k).map (fun m => (Value.ref m, m))) =
      if j < k then some j else none := by
  induction k with
  | zero => simp [lookupIndex]
  | succ k ih =>
    rw [List.range_succ, List.map_append]
    by_cases hj : j < k
    · have hpre : lookupIndex (Value.ref j)
          ((List.range k).map (fun m => (Value.ref m, m))) = some j := by
        rw [ih]; simp [hj]
      rw [lookupIndex_append_some hpre]
      simp [Nat.lt_succ_of_lt hj]
    · rw [lookupIndex_append_none _ (by rw [ih]; simp [hj])]
      by_cases hjk : j = k
      · subst hjk
        simp [lookupIndex]
      · have hns : ¬ j < k + 1 := by omega
        simp [lookupIndex, hns]
        omega

theorem lookupElem_chain (k j : Nat) :
    lookupElem j ((List.range k).map (fun m => (Value.ref m, m))) =
      if j < k then some (Value.ref j) else none := by
  induction k with
  | zero => simp [lookupElem]
  | succ k ih =>
    rw [List.range_succ, List.map_append]
    by_cases hj : j < k
    · have hpre : lookupElem j
          ((List.range k).map (fun m => (Value.ref m, m))) = some (Value.ref j) := by
        rw [ih]; simp [hj]
      rw [lookupElem_append_some hpre]
      simp [Nat.lt_succ_of_lt hj]
    · rw [lookupElem_append_none _ (by rw [ih]; simp [hj])]
      by_cases hjk : j = k
      · subst hjk
        simp [lookupElem]
      · have hns : ¬ j < k + 1 := by omega
        simp [lookupElem, hns]
        omega

/-- Encoding a reference to a two-element array whose elements alias the same
value assigns both elements the same node index: the second `add` of the
shared value is a memo hit. -/
theorem add_arr_pair (B : BuiltinList) (H : Heap) (ra : Nat) (w : Value)
    (hroot : H[ra]? = some (HObj.arr [w, w]))
    (hB : getNameOfBuiltin B (Value.ref ra) = none) :
    ∀ fuel st st2 i, add B H fuel st (Value.ref ra) = some (st2, i) →
    lookupIndex (Value.ref ra) st.indexMap = none →
    ∃ j, i = st.contentArray.length ∧
      st2.contentArray[i]? = some (some (Node.arrN [j, j])) := by
  intro fuel st st2 i h hmiss
  cases fuel with
  | zero => simp [add] at h
  | succ f =>
    simp only [add] at h
    split at h
    · rename_i j hl
      rw [hmiss] at hl; exact absurd hl (by simp)
    · rename_i hl
      split at h
      · simp at h
      · rename_i stx node hs
        simp only [Option.some.injEq, Prod.mk.injEq] at h
        obtain ⟨rfl, rfl⟩ := h
        cases f with
        | zero => simp [serializeValue] at hs
        | succ f2 =>
          simp only [serializeValue] at hs
          split at hs
          · rename_i name hb
            rw [hB] at hb; exact absurd hb (by simp)
          · rename_i hb
            rw [hroot] at hs
            split at hs
            all_goals try (rename_i hg; exact Option.noConfusion hg)
            all_goals try (rename_i hg; injection hg with hg2; exact HObj.noConfusion hg2)
            rename_i elems hg
            simp only [Option.some.injEq, HObj.arr.injEq] at hg
            subst hg
            split at hs
            · simp at hs
            · rename_i sty idxs hal
              simp only [Option.some.injEq, Prod.mk.injEq] at hs
              obtain ⟨rfl, rfl⟩ := hs
              cases f2 with
              | zero => simp [addList] at hal
              | succ f3 =>
                simp only [addList] at hal
                split at hal
                · simp at hal
                · rename_i stA i1 ha1
                  split at hal
                  · simp at hal
                  · rename_i stB is2 ha2
                    simp only [Option.some.injEq, Prod.mk.injEq] at hal
                    obtain ⟨rfl, rfl⟩ := hal
                    cases f3 with
                    | zero => simp [addList] at ha2
                    | succ f4 =>
                      simp only [addList] at ha2
                      split at ha2
                      · simp at ha2
                      · rename_i stC i2 ha3
                        split at ha2
                        · simp at ha2
                        · rename_i stD is3 ha4
                          simp only [Option.some.injEq, Prod.mk.injEq] at ha2
                          obtain ⟨rfl, rfl⟩ := ha2
                          cases f4 with
                          | zero => simp [add] at ha3
                          | succ f5 =>
                            rw [add_memo_hit B H f5 stA w i1 (add_lookup_after ha1)] at ha3
                            simp only [Option.some.injEq, Prod.mk.injEq] at ha3
                            obtain ⟨rfl, rfl⟩ := ha3
                            simp only [addList, Option.some.injEq, Prod.mk.injEq] at ha4
                            obtain ⟨rfl, rfl⟩ := ha4
                            refine ⟨i1, rfl, ?_⟩
                            have h1 := ((enc_meta B H (f5+1+1)).1 _ _ _ _ ha1).2.1
                            simp only [List.length_append, List.length_cons,
                              List.length_nil] at h1
                            exact List.getElem?_set_eq_of_lt _ (by omega)

theorem encode_pair_aliases (B : BuiltinList) (H : Heap) (ra : Nat) (w : Value)
    (fuel : Nat) (doc : Doc)
    (hroot : H[ra]? = some (HObj.arr [w, w]))
    (hB : getNameOfBuiltin B (Value.ref ra) = none)
    (henc : serializeTop B H fuel (Value.ref ra) = some doc) :
    ∃ i, doc.root = 0 ∧ doc.data[0]? = some (Node.arrN [i, i]) := by
  simp only [serializeTop] at henc
  split at henc
  · simp at henc
  · rename_i st i ha
    split at henc
    · simp at henc
    · rename_i ns hns
      simp only [Option.some.injEq] at henc
      subst henc
      obtain ⟨j, hi, hslot⟩ := add_arr_pair B H ra w hroot hB fuel ⟨[], []⟩ st i ha rfl
      simp only [List.length_nil] at hi
      subst hi
      refine ⟨j, rfl, ?_⟩
      have hmap := flattenContent_eq hns
      rw [hmap, List.getElem?_map] at hslot
      cases hns0 : ns[0]? with
      | none => rw [hns0] at hslot; simp at hslot
      | some nd =>
        rw [hns0] at hslot
        simp only [Option.map_some', Option.some.injEq] at hslot
        subst hslot
        rfl

/-- Decoding an array record with two identical element indices yields an
array whose two slots hold the same (reference-equal) value: the second `get`
of the shared index is a memo hit. -/
theorem get_arr_pair (B : BuiltinList) (doc : List Node) (i : Nat) :
    ∀ fuel st idx st2 res, get B doc fuel st idx = .ok (st2, res) →
    doc[idx]? = some (Node.arrN [i, i]) →
    lookupElem idx st.indexMap = none →
    ∃ v, res = Value.ref st.heap.length ∧
      st2.heap[st.heap.length]? = some (HObj.arr [v, v]) := by
  intro fuel st idx st2 res h hnode hmiss
  cases fuel with
  | zero => simp [get] at h
  | succ f =>
    simp only [get] at h
    split at h
    · rename_i el hl
      rw [hmiss] at hl; exact absurd hl (by simp)
    · rename_i hl
      rw [hnode] at h
      split at h
      all_goals try (rename_i hg; exact Option.noConfusion hg)
      all_goals try (rename_i hg; injection hg with hg2; exact Node.noConfusion hg2)
      rename_i refs hg
      simp only [Option.some.injEq, Node.arrN.injEq] at hg
      subst hg
      split at h
      · simp at h
      · rename_i stx hge
        simp only [Except.ok.injEq, Prod.mk.injEq] at h
        obtain ⟨rfl, rfl⟩ := h
        cases f with
        | zero => simp [getElems] at hge
        | succ f2 =>
          simp only [getElems] at hge
          split at hge
          · simp at hge
          · rename_i stA v hg1
            cases f2 with
            | zero => simp [getElems] at hge
            | succ f3 =>
              simp only [getElems] at hge
              split at hge
              · simp at hge
              · rename_i stB v2 hg2
                cases f3 with
                | zero => simp [get] at hg2
                | succ f4 =>
                  have hlk : lookupElem i stA.indexMap = some v := get_lookup_after hg1
                  rw [get_memo_hit B doc f4 ⟨stA.indexMap, pushElem stA.heap st.heap.length v⟩
                    i v hlk] at hg2
                  simp only [Except.ok.injEq, Prod.mk.injEq] at hg2
                  obtain ⟨rfl, rfl⟩ := hg2
                  simp only [getElems, Except.ok.injEq] at hge
                  subst hge
                  have hcell : stA.heap[st.heap.length]? = some (HObj.arr []) := by
                    have hpres := ((dec_meta B doc (f4+1+1)).1 _ _ _ _ hg1).2.2.1
                    simp only at hpres
                    rw [hpres st.heap.length (by simp)]
                    exact List.getElem?_concat_length _ _
                  have hlenA : st.heap.length < stA.heap.length := by
                    have hlen := ((dec_meta B doc (f4+1+1)).1 _ _ _ _ hg1).2.2.2
                    simp at hlen
                    omega
                  refine ⟨v, rfl, ?_⟩
                  have hp1 : pushElem stA.heap st.heap.length v =
                      stA.heap.set st.heap.length (HObj.arr [v]) := by
                    rw [pushElem, hcell]
                    rfl
                  have hc2 : (stA.heap.set st.heap.length (HObj.arr [v]))[st.heap.length]? =
                      some (HObj.arr [v]) :=
                    List.getElem?_set_eq_of_lt _ (by simpa using hlenA)
                  have hp2 : pushElem (stA.heap.set st.heap.length (HObj.arr [v]))
                      st.heap.length v =
                      (stA.heap.set st.heap.length (HObj.arr [v])).set st.heap.length
                        (HObj.arr [v, v]) := by
                    rw [pushElem, hc2]
                    rfl
                  show (pushElem (pushElem stA.heap st.heap.length v)
                    st.heap.length v)[st.heap.length]? = _
                  rw [hp1, hp2]
                  exact List.getElem?_set_eq_of_lt _ (by simpa using hlenA)

/-- The encoder chain invariant: serializing chain object `k` fills exactly
the slots `k..n-1`, with object `n-1` referring back to index 0. -/
theorem add_chain (n : Nat) : ∀ m k, k + m + 1 = n →
    add [] (chainHeap n) (3 * m + 4) (chainEncSt k) (Value.ref k) =
      some (chainEncAfter n k, k) := by
  intro m
  induction m with
  | zero =>
    intro k hk
    have hn : n = k + 1 := by omega
    subst hn
    have hmod : (k + 1) % (k + 1) = 0 := Nat.mod_self _
    have hmiss : lookupIndex (Value.ref k) (chainEncSt k).indexMap = none := by
      simp [chainEncSt, lookupIndex_chain]
    have hheap : (chainHeap (k + 1))[k]? = some (HObj.obj [("next", Value.ref 0)]) := by
      rw [chainHeap_get (k + 1) k (by omega), hmod]
    have hhit : lookupIndex (Value.ref 0) (chainEncSt (k + 1)).indexMap = some 0 := by
      simp [chainEncSt, lookupIndex_chain]
    have hst1 : (⟨(chainEncSt k).indexMap ++
        [(Value.ref k, (chainEncSt k).contentArray.length)],
        (chainEncSt k).contentArray ++ [none]⟩ : EncState) = chainEncSt (k + 1) := by
      simp [chainEncSt, List.range_succ, List.replicate_succ']
    have hinner : add [] (chainHeap (k + 1)) (3 * 0 + 0 + 1) (chainEncSt (k + 1))
        (Value.ref 0) = some (chainEncSt (k + 1), 0) := by
      simp [add, hhit]
    have hprops : addProps [] (chainHeap (k + 1)) (3 * 0 + 1 + 1) (chainEncSt (k + 1))
        [("next", Value.ref 0)] = some (chainEncSt (k + 1), [("next", 0)]) := by
      simp [addProps, hinner]
    have hsv : serializeValue [] (chainHeap (k + 1)) (3 * 0 + 2 + 1) (chainEncSt (k + 1))
        (Value.ref k) = some (chainEncSt (k + 1), Node.objN [("next", 0)]) := by
      simp [serializeValue, getNameOfBuiltin, hheap, hprops]
    have hcontent : (chainEncSt (k + 1)).contentArray.set
        (chainEncSt k).contentArray.length (some (Node.objN [("next", 0)])) =
        (chainEncAfter (k + 1) k).contentArray := by
      apply List.ext_getElem?
      intro j
      simp only [chainEncSt, chainEncAfter, List.length_replicate, List.getElem?_set,
        List.getElem?_replicate, range_map_get]
      rcases Nat.lt_trichotomy j k with hj | hj | hj
      · have h1 : ¬ k = j := by omega
        have h2 : j < k + 1 := by omega
        simp [h1, h2, hj]
      · subst hj
        simp [hmod]
      · have h1 : ¬ j = k := by omega
        have h2 : ¬ k = j := by omega
        by_cases h3 : j < k + 1
        · omega
        · simp [h2, h3, hj]
    show add [] (chainHeap (k + 1)) (3 * 0 + 3 + 1) (chainEncSt k) (Value.ref k) = _
    simp only [add, hmiss]
    rw [hst1]
    simp only [hsv]
    rw [hcontent]
    simp [chainEncSt, chainEncAfter]
  | succ m ih =>
    intro k hk
    have hkn : k < n := by omega
    have hk1n : k + 1 < n := by omega
    have hmod : (k + 1) % n = k + 1 := Nat.mod_eq_of_lt hk1n
    have hmiss : lookupIndex (Value.ref k) (chainEncSt k).indexMap = none := by
      simp [chainEncSt, lookupIndex_chain]
    have hheap : (chainHeap n)[k]? = some (HObj.obj [("next", Value.ref (k + 1))]) := by
      rw [chainHeap_get n k hkn, hmod]
    have hst1 : (⟨(chainEncSt k).indexMap ++
        [(Value.ref k, (chainEncSt k).contentArray.length)],
        (chainEncSt k).contentArray ++ [none]⟩ : EncState) = chainEncSt (k + 1) := by
      simp [chainEncSt, List.range_succ, List.replicate_succ']
    have hinner : add [] (chainHeap n) (3 * m + 4) (chainEncSt (k + 1))
        (Value.ref (k + 1)) = some (chainEncAfter n (k + 1), k + 1) :=
      ih (k + 1) (by omega)
    have hprops : addProps [] (chainHeap n) (3 * m + 4 + 1) (chainEncSt (k + 1))
        [("next", Value.ref (k + 1))] =
        some (chainEncAfter n (k + 1), [("next", k + 1)]) := by
      simp [addProps, hinner]
    have hsv : serializeValue [] (chainHeap n) (3 * m + 4 + 1 + 1) (chainEncSt (k + 1))
        (Value.ref k) = some (chainEncAfter n (k + 1), Node.objN [("next", k + 1)]) := by
      simp [serializeValue, getNameOfBuiltin, hheap, hprops]
    have hcontent : (chainEncAfter n (k + 1)).contentArray.set
        (chainEncSt k).contentArray.length (some (Node.objN [("next", k + 1)])) =
        (chainEncAfter n k).contentArray := by
      apply List.ext_getElem?
      intro j
      simp only [chainEncSt, chainEncAfter, List.length_replicate, List.getElem?_set,
        range_map_get, List.length_map, List.length_range]
      rcases Nat.lt_trichotomy j k with hj | hj | hj
      · have h1 : ¬ k = j := by omega
        have h2 : j < k + 1 := by omega
        have h3 : j < n := by omega
        simp [h1, h2, h3, hj]
      · subst hj
        simp [hkn, hmod]
      · have h1 : ¬ k = j := by omega
        have h2 : ¬ j < k + 1 := by omega
        have h3 : ¬ j < k := by omega
        simp [h1, h2, h3]
    show add [] (chainHeap n) (3 * m + 4 + 1 + 1 + 1) (chainEncSt k) (Value.ref k) = _
    simp only [add, hmiss]
    rw [hst1]
    simp only [hsv]
    rw [hcontent]
    simp [chainEncSt, chainEncAfter]

/-- The decoder chain invariant: decoding chain index `k` allocates addresses
`k..n-1` and attaches every `"next"` reference, re-entering the memo table at
the cycle edge. -/
theorem get_chain (n : Nat) : ∀ m k, k + m + 1 = n →
    get [] (chainDoc n) (2 * m + 3) (chainDecSt k) k =
      .ok (chainDecAfter n k, Value.ref k) := by
  intro m
  induction m with
  | zero =>
    intro k hk
    have hn : n = k + 1 := by omega
    subst hn
    have hmod : (k + 1) % (k + 1) = 0 := Nat.mod_self _
    have hmiss : lookupElem k (chainDecSt k).indexMap = none := by
      simp [chainDecSt, lookupElem_chain]
    have hdoc : (chainDoc (k + 1))[k]? = some (Node.objN [("next", 0)]) := by
      rw [chainDoc_get (k + 1) k (by omega), hmod]
    have hhit : lookupElem 0 (chainDecSt (k + 1)).indexMap = some (Value.ref 0) := by
      simp [chainDecSt, lookupElem_chain]
    have hst1 : (⟨(chainDecSt k).indexMap ++ [(Value.ref (chainDecSt k).heap.length, k)],
        (chainDecSt k).heap ++ [HObj.obj []]⟩ : DecState) = chainDecSt (k + 1) := by
      simp [chainDecSt, List.range_succ, List.replicate_succ']
    have hinner : get [] (chainDoc (k + 1)) (2 * 0 + 0 + 1) (chainDecSt (k + 1)) 0 =
        .ok (chainDecSt (k + 1), Value.ref 0) := by
      simp [get, hhit]
    have hpush : pushProp (chainDecSt (k + 1)).heap (chainDecSt k).heap.length "next"
        (Value.ref 0) = (chainDecAfter (k + 1) k).heap := by
      simp only [chainDecSt, pushProp, List.length_replicate, List.getElem?_replicate,
        Nat.lt_succ_self, if_pos]
      apply List.ext_getElem?
      intro j
      simp only [chainDecAfter, List.getElem?_set, List.getElem?_replicate, range_map_get]
      rcases Nat.lt_trichotomy j k with hj | hj | hj
      · have h1 : ¬ k = j := by omega
        have h2 : j < k + 1 := by omega
        simp [h1, h2, hj]
      · subst hj
        simp [hmod]
      · have h1 : ¬ k = j := by omega
        have h2 : ¬ j < k + 1 := by omega
        simp [h1, h2, hj]
    have hprops : getProps [] (chainDoc (k + 1)) (2 * 0 + 1 + 1) (chainDecSt (k + 1))
        (chainDecSt k).heap.length [("next", 0)] = .ok (chainDecAfter (k + 1) k) := by
      simp only [getProps, hinner]
      rw [hpush]
      simp [getProps, chainDecSt, chainDecAfter]
    show get [] (chainDoc (k + 1)) (2 * 0 + 2 + 1) (chainDecSt k) k = _
    simp only [get, hmiss, hdoc]
    rw [hst1]
    simp only [hprops]
    simp [chainDecSt]
  | succ m ih =>
    intro k hk
    have hkn : k < n := by omega
    have hk1n : k + 1 < n := by omega
    have hmod : (k + 1) % n = k + 1 := Nat.mod_eq_of_lt hk1n
    have hmiss : lookupElem k (chainDecSt k).indexMap = none := by
      simp [chainDecSt, lookupElem_chain]
    have hdoc : (chainDoc n)[k]? = some (Node.objN [("next", k + 1)]) := by
      rw [chainDoc_get n k hkn, hmod]
    have hst1 : (⟨(chainDecSt k).indexMap ++ [(Value.ref (chainDecSt k).heap.length, k)],
        (chainDecSt k).heap ++ [HObj.obj []]⟩ : DecState) = chainDecSt (k + 1) := by
      simp [chainDecSt, List.range_succ, List.replicate_succ']
    have hinner : get [] (chainDoc n) (2 * m + 3) (chainDecSt (k + 1)) (k + 1) =
        .ok (chainDecAfter n (k + 1), Value.ref (k + 1)) := ih (k + 1) (by omega)
    have hpush : pushProp (chainDecAfter n (k + 1)).heap (chainDecSt k).heap.length "next"
        (Value.ref (k + 1)) = (chainDecAfter n k).heap := by
      have hcell : (chainDecAfter n (k + 1)).heap[(chainDecSt k).heap.length]? =
          some (HObj.obj []) := by
        simp [chainDecSt, chainDecAfter, range_map_get, hkn]
      simp only [pushProp, hcell]
      apply List.ext_getElem?
      intro j
      simp only [chainDecSt, chainDecAfter, List.length_replicate, List.getElem?_set,
        range_map_get, List.length_map, List.length_range]
      rcases Nat.lt_trichotomy j k with hj | hj | hj
      · have h1 : ¬ k = j := by omega
        have h2 : j < k + 1 := by omega
        have h3 : j < n := by omega
        simp [h1, h2, h3, hj]
      · subst hj
        simp [hkn, hmod]
      · have h1 : ¬ k = j := by omega
        have h2 : ¬ j < k + 1 := by omega
        have h3 : ¬ j < k := by omega
        simp [h1, h2, h3]
    have hprops : getProps [] (chainDoc n) (2 * m + 3 + 1) (chainDecSt (k + 1))
        (chainDecSt k).heap.length [("next", k + 1)] = .ok (chainDecAfter n k) := by
      simp only [getProps, hinner]
      rw [hpush]
      simp [getProps, chainDecSt, chainDecAfter]
    show get [] (chainDoc n) (2 * m + 3 + 1 + 1) (chainDecSt k) k = _
    simp only [get, hmiss, hdoc]
    rw [hst1]
    simp only [hprops]
    simp [chainDecSt]

/-- Following `"next"` through the cyclic chain advances modulo `n`. -/
theorem followNext_chain (n : Nat) (hn : 0 < n) :
    ∀ m k, k < n → followNext (chainHeap n) m k = some ((k + m) % n) := by
  intro m
  induction m with
  | zero =>
    intro k hk
    simp [followNext, Nat.mod_eq_of_lt hk]
  | succ m ih =>
    intro k hk
    simp only [followNext, chainHeap_get n k hk]
    rw [ih ((k + 1) % n) (Nat.mod_lt _ hn)]
    rw [Nat.mod_add_mod]
    have harith : k + 1 + m = k + (m + 1) := by omega
    rw [harith]

theorem declaredDepth_pos (name : String) (s : CVScope) (rest : List CVScope)
    (hd : s.isDeclared name = false) :
    declaredDepth name (s :: rest) = declaredDepth name rest + 1 := by
  simp [declaredDepth, hd]

theorem declaredDepth_zero (name : String) (s : CVScope) (rest : List CVScope)
    (hd : s.isDeclared name = true) :
    declaredDepth name (s :: rest) = 0 := by
  simp [declaredDepth, hd]

/-- On a well-formed chain, a name already recorded in the innermost scope is
recorded in every scope strictly below the first declarer. -/
theorem wf_spread (name : String) : ∀ (chain : List CVScope) (s : CVScope),
    WFChain name (s :: chain) → name ∈ s.used →
    ∀ i sc, i < declaredDepth name (s :: chain) → (s :: chain)[i]? = some sc →
    name ∈ sc.used := by
  intro chain
  induction chain with
  | nil =>
    intro s hwf hmem i sc hi hsc
    by_cases hd : s.isDeclared name
    · rw [declaredDepth_zero name s [] hd] at hi
      omega
    · rw [declaredDepth_pos name s [] (by simpa using hd)] at hi
      have hi0 : i = 0 := by simp [declaredDepth] at hi; omega
      subst hi0
      simp only [List.getElem?_cons_zero, Option.some.injEq] at hsc
      subst hsc
      exact hmem
  | cons s2 rest ih =>
    intro s hwf hmem i sc hi hsc
    by_cases hd : s.isDeclared name
    · rw [declaredDepth_zero name s _ hd] at hi
      omega
    · rw [declaredDepth_pos name s _ (by simpa using hd)] at hi
      cases i with
      | zero =>
        simp only [List.getElem?_cons_zero, Option.some.injEq] at hsc
        subst hsc
        exact hmem
      | succ i =>
        have hup : name ∈ s2.used ∨ name ∈ s2.declared := hwf.1 hmem
        cases hup with
        | inr hdecl2 =>
          rw [declaredDepth_zero name s2 _ (by simp [CVScope.isDeclared, hdecl2])] at hi
          omega
        | inl hmem2 =>
          exact ih s2 hwf.2 hmem2 i sc (by omega) (by simpa using hsc)

/-- `use` records the name in every scope strictly below the first declarer
and leaves the first declarer and everything above it untouched. -/
theorem cvUse_spread (name : String) : ∀ (chain : List CVScope), WFChain name chain →
    (∀ i sc, i < declaredDepth name chain → (cvUse name chain)[i]? = some sc →
      name ∈ sc.used) ∧
    (∀ i, declaredDepth name chain ≤ i → (cvUse name chain)[i]? = chain[i]?) := by
  intro chain
  induction chain with
  | nil =>
    intro hwf
    constructor
    · intro i sc hi
      simp [declaredDepth] at hi
    · intro i _
      simp [cvUse]
  | cons s rest ih =>
    intro hwf
    by_cases hd : s.isDeclared name
    · constructor
      · intro i sc hi
        rw [declaredDepth_zero name s _ hd] at hi
        omega
      · intro i _
        simp [cvUse, hd]
    · by_cases hc : s.isCaptured name
      · have hmem : name ∈ s.used := by simpa [CVScope.isCaptured] using hc
        have hunchanged : cvUse name (s :: rest) = s :: rest := by
          simp [cvUse, hc]
        rw [hunchanged]
        constructor
        · intro i sc hi hsc
          exact wf_spread name rest s hwf hmem i sc hi hsc
        · intro i _
          rfl
      · have hstep : cvUse name (s :: rest) =
            { s with used := s.used ++ [name] } :: cvUse name rest := by
          simp [cvUse, hc, hd]
        have hwfrest : WFChain name rest := by
          cases rest with
          | nil => trivial
          | cons s2 r2 => exact hwf.2
        obtain ⟨ih1, ih2⟩ := ih hwfrest
        rw [hstep]
        constructor
        · intro i sc hi hsc
          rw [declaredDepth_pos name s _ (by simpa using hd)] at hi
          cases i with
          | zero =>
            simp only [List.getElem?_cons_zero, Option.some.injEq] at hsc
            subst hsc
            simp
          | succ i =>
            exact ih1 i sc (by omega) (by simpa using hsc)
        · intro i hi
          rw [declaredDepth_pos name s _ (by simpa using hd)] at hi
          cases i with
          | zero => omega
          | succ i =>
            simp only [List.getElem?_cons_succ]
            exact ih2 i (by omega)

/-!
## Claim theorems
-/

/-- C1: for every JSON-primitive value `v`, deserializing the result of
serializing `v` yields `v` itself: the encoder stores a single
`primitive` record wrapping `v` at root index 0, and the decoder returns the
wrapped value unchanged.  (The hypothesis records that a JSON-representable
primitive is never a registered builtin; the registry built by `builtins.ts`
only registers objects and functions among JSON-representable values.) -/
theorem primitive_roundtrip (B B2 : BuiltinList) (H : Heap) (p : Prim) (fuel fuel2 : Nat)
    (h : getNameOfBuiltin B (Value.prim p) = none) :
    serializeTop B H (fuel + 2) (Value.prim p) = some ⟨0, [Node.primitive p]⟩ ∧
    deserializeTop B2 ⟨0, [Node.primitive p]⟩ (fuel2 + 1) = Except.ok (Value.prim p) := by
  constructor
  · simp [serializeTop, add, serializeValue, lookupIndex, flattenContent, h]
  · simp [deserializeTop, deserializeRun, get, lookupElem]

/-- Witness for C1 at the concrete primitive `10`. -/
theorem primitive_roundtrip_witness :
    getNameOfBuiltin [] (Value.prim (Prim.vnum 10)) = none ∧
    (serializeTop [] [] 2 (Value.prim (Prim.vnum 10)) =
        some ⟨0, [Node.primitive (Prim.vnum 10)]⟩ ∧
      deserializeTop [] ⟨0, [Node.primitive (Prim.vnum 10)]⟩ 1 =
        Except.ok (Value.prim (Prim.vnum 10))) :=
  ⟨by decide, primitive_roundtrip [] [] [] (Prim.vnum 10) 0 0 (by decide)⟩

/-- C2: encoding a value graph in which two paths (the two slots of the root
array) reference the same (`===`) sub-object `w` — over any heap, any shared
value, and any registries — assigns both paths one node index (the value→index
memo table is consulted before encoding), and decoding the encoded document
yields an array whose two slots hold the identical value: for heap values,
the same address, i.e. reference equality, not merely deep equality (the
decoder memoizes each index's materialized value). -/
theorem aliasing_preserved (B B2 : BuiltinList) (H : Heap) (ra : Nat) (w : Value)
    (fuel fuel2 : Nat) (doc : Doc) (stf : DecState) (res : Value)
    (hroot : H[ra]? = some (HObj.arr [w, w]))
    (hB : getNameOfBuiltin B (Value.ref ra) = none)
    (henc : serializeTop B H fuel (Value.ref ra) = some doc)
    (hdec : deserializeRun B2 doc fuel2 = .ok (stf, res)) :
    (∃ i, doc.root = 0 ∧ doc.data[0]? = some (Node.arrN [i, i])) ∧
    ∃ v, res = Value.ref 0 ∧ stf.heap[0]? = some (HObj.arr [v, v]) := by
  obtain ⟨i, hr0, hn⟩ := encode_pair_aliases B H ra w fuel doc hroot hB henc
  refine ⟨⟨i, hr0, hn⟩, ?_⟩
  have hres := get_arr_pair B2 doc.data i fuel2 ⟨[], []⟩ doc.root stf res hdec
    (by rw [hr0]; exact hn) rfl
  simpa using hres

/-- Witness for C2: an array `[o, o]` sharing the object `{x: 1}`. -/
theorem aliasing_preserved_witness :
    ([HObj.obj [("x", Value.prim (Prim.vnum 1))], HObj.arr [Value.ref 0, Value.ref 0]] :
        Heap)[1]? = some (HObj.arr [Value.ref 0, Value.ref 0]) ∧
    getNameOfBuiltin [] (Value.ref 1) = none ∧
    serializeTop [] [HObj.obj [("x", Value.prim (Prim.vnum 1))],
        HObj.arr [Value.ref 0, Value.ref 0]] 9 (Value.ref 1) =
      some ⟨0, [Node.arrN [1, 1], Node.objN [("x", 2)], Node.primitive (Prim.vnum 1)]⟩ ∧
    deserializeRun [] ⟨0, [Node.arrN [1, 1], Node.objN [("x", 2)],
        Node.primitive (Prim.vnum 1)]⟩ 9 =
      .ok (⟨[(Value.ref 0, 0), (Value.ref 1, 1), (Value.prim (Prim.vnum 1), 2)],
            [HObj.arr [Value.ref 1, Value.ref 1],
             HObj.obj [("x", Value.prim (Prim.vnum 1))]]⟩, Value.ref 0) ∧
    ((∃ i, (⟨0, [Node.arrN [1, 1], Node.objN [("x", 2)],
          Node.primitive (Prim.vnum 1)]⟩ : Doc).root = 0 ∧
        (⟨0, [Node.arrN [1, 1], Node.objN [("x", 2)],
          Node.primitive (Prim.vnum 1)]⟩ : Doc).data[0]? = some (Node.arrN [i, i])) ∧
      ∃ v, (Value.ref 0 : Value) = Value.ref 0 ∧
        ([HObj.arr [Value.ref 1, Value.ref 1],
          HObj.obj [("x", Value.prim (Prim.vnum 1))]] : List HObj)[0]? =
          some (HObj.arr [v, v])) :=
  ⟨rfl, rfl, rfl, rfl,
   aliasing_preserved [] [] [HObj.obj [("x", Value.prim (Prim.vnum 1))],
      HObj.arr [Value.ref 0, Value.ref 0]] 1 (Value.ref 0) 9 9
      ⟨0, [Node.arrN [1, 1], Node.objN [("x", 2)], Node.primitive (Prim.vnum 1)]⟩
      ⟨[(Value.ref 0, 0), (Value.ref 1, 1), (Value.prim (Prim.vnum 1), 2)],
       [HObj.arr [Value.ref 1, Value.ref 1], HObj.obj [("x", Value.prim (Prim.vnum 1))]]⟩
      (Value.ref 0) rfl rfl rfl rfl⟩

/-- C3: for every cycle length `n ≥ 1` (direct self-reference at `n = 1`,
transitive otherwise), encoding the cyclic chain terminates (with fuel linear
in `n` — each value's index is registered before its children are processed,
so the cycle edge is a memo hit), producing the expected document; decoding
that document terminates likewise (the in-progress placeholder is registered
before children are decoded), reconstructing a structurally identical cyclic
heap; and the decoded cycle's self-reference is preserved: following `"next"`
`n` times from the root returns to the root. -/
theorem cycle_roundtrip (n : Nat) (hn : 0 < n) :
    serializeTop [] (chainHeap n) (3 * (n - 1) + 4) (Value.ref 0) = some ⟨0, chainDoc n⟩ ∧
    deserializeRun [] ⟨0, chainDoc n⟩ (2 * (n - 1) + 3) =
      .ok (⟨chainMemo n, chainHeap n⟩, Value.ref 0) ∧
    followNext (chainHeap n) n 0 = some 0 := by
  refine ⟨?_, ?_, ?_⟩
  · have hadd := add_chain n (n - 1) 0 (by omega)
    have h0 : chainEncSt 0 = ⟨[], []⟩ := by simp [chainEncSt]
    rw [h0] at hadd
    have hflat : flattenContent (chainEncAfter n 0).contentArray = some (chainDoc n) := by
      have hmapeq : (chainEncAfter n 0).contentArray = (chainDoc n).map some := by
        simp [chainEncAfter, chainDoc, List.map_map]
      rw [hmapeq, flattenContent_map_some]
    simp only [serializeTop, hadd, hflat]
  · have hget := get_chain n (n - 1) 0 (by omega)
    have h0 : chainDecSt 0 = ⟨[], []⟩ := by simp [chainDecSt]
    rw [h0] at hget
    have hafter : chainDecAfter n 0 = ⟨chainMemo n, chainHeap n⟩ := by
      simp [chainDecAfter, chainMemo, chainHeap]
    rw [hafter] at hget
    simpa [deserializeRun] using hget
  · have hf := followNext_chain n hn n 0 hn
    simpa using hf

/-- Witness for C3 at cycle length 2. -/
theorem cycle_roundtrip_witness :
    0 < 2 ∧
    (serializeTop [] (chainHeap 2) (3 * (2 - 1) + 4) (Value.ref 0) =
        some ⟨0, chainDoc 2⟩ ∧
      deserializeRun [] ⟨0, chainDoc 2⟩ (2 * (2 - 1) + 3) =
        .ok (⟨chainMemo 2, chainHeap 2⟩, Value.ref 0) ∧
      followNext (chainHeap 2) 2 0 = some 0) :=
  ⟨by decide, cycle_roundtrip 2 (by decide)⟩

/-- C5 counterexample: the claim says declaring a name retroactively cancels
a use of that name already recorded within the same scope, unconditionally.
In the code the cancellation is guarded by `isHoisted`: after `use "x"`
records the name, a *non-hoisted* declaration (`declare(name, false)`, as
issued for `let`/`const` declarations, parameters and function-expression
names) leaves the recorded use in place — `"x"` is still in `used`. -/
theorem declare_cancel_counterexample :
    cvUse "x" [(⟨[], []⟩ : CVScope)] = [⟨["x"], []⟩] ∧
    (cvDeclare "x" false ⟨["x"], []⟩).used = ["x"] ∧
    "x" ∈ (cvDeclare "x" false ⟨["x"], []⟩).used := by decide

/-- C5 (amended): on a well-formed chain, a recorded use propagates to every
enclosing capture scope strictly below the first scope that declares the
name, and the declaring scope and everything above it are untouched; a scope
that has declared the name absorbs `use` entirely (no local record, no upward
propagation); a *hoisted* declaration (`isHoisted = true`, i.e. a `var`-style
declaration or function-declaration name) of a not-yet-declared name
retroactively cancels the previously recorded use of that name in that scope;
a non-hoisted declaration leaves previously recorded uses intact. -/
theorem capture_use_declare_amended (name : String) (chain : List CVScope) (s : CVScope)
    (hwf : WFChain name chain) :
    ((∀ i sc, i < declaredDepth name chain → (cvUse name chain)[i]? = some sc →
        name ∈ sc.used) ∧
      (∀ i, declaredDepth name chain ≤ i → (cvUse name chain)[i]? = chain[i]?)) ∧
    (s.isDeclared name = true → cvUse name (s :: chain) = s :: chain) ∧
    (s.isDeclared name = false → s.used.count name ≤ 1 →
      name ∉ (cvDeclare name true s).used ∧ name ∈ (cvDeclare name true s).declared) ∧
    (cvDeclare name false s).used = s.used := by
  refine ⟨cvUse_spread name chain hwf, ?_, ?_, ?_⟩
  · intro hd
    simp [cvUse, hd]
  · intro hd hcount
    constructor
    · simp only [cvDeclare, hd, Bool.false_eq_true, if_false]
      intro hmem
      have h1 : 0 < (s.used.erase name).count name := List.count_pos_iff.mpr hmem
      have h2 : (s.used.erase name).count name = s.used.count name - 1 :=
        List.count_erase_self _ _
      omega
    · simp [cvDeclare, hd]
  · simp only [cvDeclare]
    split <;> rfl

/-- Witness for the amended C5 at a two-scope chain and the scope
`⟨used := ["x"], declared := ["y"]⟩`. -/
theorem capture_use_declare_amended_witness :
    WFChain "x" [(⟨[], []⟩ : CVScope), ⟨[], []⟩] ∧
    (((∀ i sc, i < declaredDepth "x" [(⟨[], []⟩ : CVScope), ⟨[], []⟩] →
          (cvUse "x" [(⟨[], []⟩ : CVScope), ⟨[], []⟩])[i]? = some sc → "x" ∈ sc.used) ∧
        (∀ i, declaredDepth "x" [(⟨[], []⟩ : CVScope), ⟨[], []⟩] ≤ i →
          (cvUse "x" [(⟨[], []⟩ : CVScope), ⟨[], []⟩])[i]? =
            [(⟨[], []⟩ : CVScope), ⟨[], []⟩][i]?)) ∧
      ((⟨["x"], ["y"]⟩ : CVScope).isDeclared "x" = true →
        cvUse "x" ((⟨["x"], ["y"]⟩ : CVScope) :: [(⟨[], []⟩ : CVScope), ⟨[], []⟩]) =
          (⟨["x"], ["y"]⟩ : CVScope) :: [(⟨[], []⟩ : CVScope), ⟨[], []⟩]) ∧
      ((⟨["x"], ["y"]⟩ : CVScope).isDeclared "x" = false →
        (⟨["x"], ["y"]⟩ : CVScope).used.count "x" ≤ 1 →
        "x" ∉ (cvDeclare "x" true ⟨["x"], ["y"]⟩).used ∧
        "x" ∈ (cvDeclare "x" true ⟨["x"], ["y"]⟩).declared) ∧
      (cvDeclare "x" false ⟨["x"], ["y"]⟩).used = (⟨["x"], ["y"]⟩ : CVScope).used) :=
  ⟨by simp [WFChain],
   capture_use_declare_amended "x" [⟨[], []⟩, ⟨[], []⟩] ⟨["x"], ["y"]⟩ (by simp [WFChain])⟩

/-- C6: a value reference-equal to a registered builtin is serialized as a
`builtin` record carrying only the name, with the encoder state returned
untouched — no structural content of the value is serialized, for *any* value
shape, because the builtin check precedes all structural dispatch.  Decoding a
`builtin` record looks the name up in the decoding registry and returns (and
memoizes) exactly the registry's value for that name — reference equality. -/
theorem builtin_short_circuit (B B2 : BuiltinList) (H : Heap) (fuel : Nat)
    (st : EncState) (v w : Value) (n : String) (doc : List Node) (st2 : DecState) (idx : Nat) :
    (getNameOfBuiltin B v = some n →
      serializeValue B H (fuel + 1) st v = some (st, Node.builtinN n)) ∧
    (doc[idx]? = some (Node.builtinN n) → lookupElem idx st2.indexMap = none →
      getBuiltinByName B2 n = some w →
      get B2 doc (fuel + 1) st2 idx = .ok (⟨st2.indexMap ++ [(w, idx)], st2.heap⟩, w)) := by
  constructor
  · intro h1
    simp [serializeValue, h1]
  · intro h1 h2 h3
    simp [get, h1, h2, h3]

/-- Witness for C6: a registry mapping `"math"` to the object at address 5. -/
theorem builtin_short_circuit_witness :
    getNameOfBuiltin [("math", Value.ref 5)] (Value.ref 5) = some "math" ∧
    serializeValue [("math", Value.ref 5)] [] 4 ⟨[], []⟩ (Value.ref 5) =
      some (⟨[], []⟩, Node.builtinN "math") ∧
    get [("math", Value.ref 5)] [Node.builtinN "math"] 4 ⟨[], []⟩ 0 =
      .ok (⟨[(Value.ref 5, 0)], []⟩, Value.ref 5) :=
  ⟨by decide,
   (builtin_short_circuit [("math", Value.ref 5)] [("math", Value.ref 5)] [] 3 ⟨[], []⟩
      (Value.ref 5) (Value.ref 5) "math" [Node.builtinN "math"] ⟨[], []⟩ 0).1 (by decide),
   (builtin_short_circuit [("math", Value.ref 5)] [("math", Value.ref 5)] [] 3 ⟨[], []⟩
      (Value.ref 5) (Value.ref 5) "math" [Node.builtinN "math"] ⟨[], []⟩ 0).2
      (by decide) (by decide) (by decide)⟩

/-- C7 (failing input): `serializeObject` iterates `for (let key in value)`
over *all* own enumerable properties with no double-underscore exclusion, so
`{ __hidden: 10 }` round-trips to `{ __hidden: 10 }`, not to `{}` as the
specification (and the repository's own test
`roundtrip({ "__elide_this": 10 })` deep-equals `{}`) requires. -/
theorem underscore_property_roundtrip :
    serializeTop [] [HObj.obj [("__hidden", Value.prim (Prim.vnum 10))]] 9 (Value.ref 0) =
      some ⟨0, [Node.objN [("__hidden", 1)], Node.primitive (Prim.vnum 10)]⟩ ∧
    deserializeRun [] ⟨0, [Node.objN [("__hidden", 1)], Node.primitive (Prim.vnum 10)]⟩ 9 =
      .ok (⟨[(Value.ref 0, 0), (Value.prim (Prim.vnum 10), 1)],
            [HObj.obj [("__hidden", Value.prim (Prim.vnum 10))]]⟩, Value.ref 0) :=
  ⟨rfl, rfl⟩

/-- C8: a record whose `kind` is not among the recognized kinds makes `get`
throw (`unknownKind`), and a `builtin` record whose name is absent from the
registry in effect at decode time makes `get` throw (`unknownBuiltin`); in
both cases the decoder returns an error, never a default value. -/
theorem decode_unknown_fatal (B : BuiltinList) (doc : List Node) (fuel : Nat)
    (st : DecState) (idx : Nat) (k name : String) :
    (doc[idx]? = some (Node.other k) → k ∉ recognizedKinds →
      lookupElem idx st.indexMap = none →
      get B doc (fuel + 1) st idx = .error (.unknownKind k)) ∧
    (doc[idx]? = some (Node.builtinN name) → getBuiltinByName B name = none →
      lookupElem idx st.indexMap = none →
      get B doc (fuel + 1) st idx = .error (.unknownBuiltin name)) := by
  constructor
  · intro h1 _ h3
    simp [get, h1, h3]
  · intro h1 h2 h3
    simp [get, h1, h2, h3]

/-- Witness for C8: an unrecognized kind `"frobnicate"`, and the builtin name
`"Math"` against an empty registry. -/
theorem decode_unknown_fatal_witness :
    get [] [Node.other "frobnicate"] 3 ⟨[], []⟩ 0 = .error (.unknownKind "frobnicate") ∧
    get [] [Node.builtinN "Math"] 3 ⟨[], []⟩ 0 = .error (.unknownBuiltin "Math") :=
  ⟨(decode_unknown_fatal [] [Node.other "frobnicate"] 2 ⟨[], []⟩ 0 "frobnicate" "x").1
      (by decide) (by decide) (by decide),
   (decode_unknown_fatal [] [Node.builtinN "Math"] 2 ⟨[], []⟩ 0 "x" "Math").2
      (by decide) (by decide) (by decide)⟩

/-- C9: a function with no `__closure` accessor serializes exactly like one
whose accessor produces an empty mapping — `serializeFunction` substitutes
`() => ({})` — and succeeds, emitting a `function` record whose closure index
points at an empty `object` record; correspondingly,
`addClosurePropertyToLambda` returns a lambda with an empty captured-variable
list completely unmodified (no accessor is attached). -/
theorem no_accessor_empty_closure (B : BuiltinList) (H : Heap) (fuel : Nat)
    (st : EncState) (src : String) (temp : Nat) (lambda : Expr) :
    serializeFunction B H (fuel + 1) st src none =
      serializeFunction B H (fuel + 1) st src (some []) ∧
    serializeFunction B H (fuel + 2) st src none =
      some (⟨st.indexMap, st.contentArray ++ [some (Node.objN [])]⟩,
        Node.funcN src st.contentArray.length) ∧
    addClosurePropertyToLambda temp lambda [] = lambda := by
  refine ⟨rfl, ?_, rfl⟩
  simp [serializeFunction, addProps, set_append_cons]

/-- C10: decoding the two-record document in which function index 0's closure
record (index 1) refers back to index 0 first memoizes a stub (address 0),
decodes the closure — whose re-entrant access to index 0 receives the stub
`ref 0` — then materializes the evaluated implementation at address 2,
patches the stub's `__impl` slot to `ref 2`, overwrites the memo entry for
index 0 with `ref 2`, and returns `ref 2`.  The re-entrantly obtained
reference (`ref 0`, stored in the implementation's captured mapping) differs
from the returned value (`ref 2`), yet calls through either address execute
the same implementation (address 2). -/
theorem function_decode_stub_patch :
    deserializeRun [] ⟨0, [Node.funcN "() => f()" 1, Node.objN [("f", 0)]]⟩ 9 =
      .ok (⟨[(Value.ref 2, 0), (Value.ref 1, 1)],
            [HObj.stub (some (Value.ref 2)), HObj.obj [("f", Value.ref 0)],
             HObj.closureFn "() => f()" [("f", Value.ref 0)]]⟩, Value.ref 2) ∧
    Value.ref 0 ≠ Value.ref 2 ∧
    callTarget [HObj.stub (some (Value.ref 2)), HObj.obj [("f", Value.ref 0)],
                HObj.closureFn "() => f()" [("f", Value.ref 0)]] 0 = some 2 ∧
    callTarget [HObj.stub (some (Value.ref 2)), HObj.obj [("f", Value.ref 0)],
                HObj.closureFn "() => f()" [("f", Value.ref 0)]] 2 = some 2 :=
  ⟨rfl, by decide, rfl, rfl⟩

end SC
namespace SC

theorem alGet_alSet_self {α : Type} (m : List (Nat × α)) (k : Nat) (v : α) :
    alGet (alSet m k v) k = some v := by
  induction m with
  | nil => simp [alSet, alGet]
  | cons p rest ih =>
    obtain ⟨k2, w⟩ := p
    by_cases h : k2 = k <;> simp [alSet, alGet, h, ih]

theorem alGet_alSet_ne {α : Type} (m : List (Nat × α)) (k k2 : Nat) (v : α) (h : k ≠ k2) :
    alGet (alSet m k v) k2 = alGet m k2 := by
  induction m with
  | nil => simp [alSet, alGet, h]
  | cons p rest ih =>
    obtain ⟨k3, w⟩ := p
    by_cases h3 : k3 = k
    · subst h3
      simp [alSet, alGet, h]
    · simp [alSet, alGet, h3, ih]

theorem alGet_alRemove_self {α : Type} (m : List (Nat × α)) (k : Nat) :
    alGet (alRemove m k) k = none := by
  induction m with
  | nil => simp [alRemove, alGet]
  | cons p rest ih =>
    obtain ⟨k2, w⟩ := p
    by_cases h : k2 = k <;> simp [alRemove, alGet, h, ih]

theorem alGet_alRemove_ne {α : Type} (m : List (Nat × α)) (k k2 : Nat) (h : k ≠ k2) :
    alGet (alRemove m k) k2 = alGet m k2 := by
  induction m with
  | nil => simp [alRemove, alGet]
  | cons p rest ih =>
    obtain ⟨k3, w⟩ := p
    by_cases h3 : k3 = k
    · have hne : ¬ k3 = k2 := by rw [h3]; exact h
      simp [alRemove, alGet, h3, hne, ih, h]
    · by_cases h2 : k3 = k2 <;> simp [alRemove, alGet, h3, h2, ih, h, Ne.symm h]

theorem noteAppearanceIn_defScopes (st : FinderState) (i s : Nat) :
    (noteAppearanceIn st i s).defScopes = st.defScopes := by
  unfold noteAppearanceIn
  split
  · rfl
  · split <;> rfl

theorem noteAppearanceIn_pending (st : FinderState) (i s : Nat) :
    (noteAppearanceIn st i s).pending = st.pending := by
  unfold noteAppearanceIn
  split
  · rfl
  · split <;> rfl

theorem noteAppearanceIn_updateCounts (st : FinderState) (i s : Nat) :
    (noteAppearanceIn st i s).updateCounts = st.updateCounts := by
  unfold noteAppearanceIn
  split
  · rfl
  · split <;> rfl

theorem noteAppearanceIn_shared_other (st : FinderState) (i s j : Nat) (h : j ≠ i) :
    (j ∈ (noteAppearanceIn st i s).sharedVars ↔ j ∈ st.sharedVars) := by
  unfold noteAppearanceIn
  split
  · exact Iff.rfl
  · split
    · exact Iff.rfl
    · simp [h]

theorem noteAppearanceIn_shared_self (st : FinderState) (id s d : Nat)
    (hd : alGet st.defScopes id = some d) :
    (id ∈ (noteAppearanceIn st id s).sharedVars ↔ id ∈ st.sharedVars ∨ s ≠ d) := by
  unfold noteAppearanceIn
  rw [hd]
  by_cases hsd : d = s
  · subst hsd
    simp
  · have hne : ¬ (some d = some s) := by simpa using hsd
    rw [if_neg hne]
    have hds : s ≠ d := fun hh => hsd hh.symm
    split
    · rename_i hmem
      simp [hmem]
    · simp [hds]

theorem flushScopes_defScopes (i : Nat) : ∀ (scopes : List Nat) (st : FinderState),
    (flushScopes st i scopes).defScopes = st.defScopes := by
  intro scopes
  induction scopes with
  | nil => intro st; rfl
  | cons s rest ih =>
    intro st
    simp [flushScopes, ih, noteAppearanceIn_defScopes]

theorem flushScopes_pending (i : Nat) : ∀ (scopes : List Nat) (st : FinderState),
    (flushScopes st i scopes).pending = st.pending := by
  intro scopes
  induction scopes with
  | nil => intro st; rfl
  | cons s rest ih =>
    intro st
    simp [flushScopes, ih, noteAppearanceIn_pending]

theorem flushScopes_updateCounts (i : Nat) : ∀ (scopes : List Nat) (st : FinderState),
    (flushScopes st i scopes).updateCounts = st.updateCounts := by
  intro scopes
  induction scopes with
  | nil => intro st; rfl
  | cons s rest ih =>
    intro st
    simp [flushScopes, ih, noteAppearanceIn_updateCounts]

theorem flushScopes_shared_other (i j : Nat) (h : j ≠ i) :
    ∀ (scopes : List Nat) (st : FinderState),
    (j ∈ (flushScopes st i scopes).sharedVars ↔ j ∈ st.sharedVars) := by
  intro scopes
  induction scopes with
  | nil => intro st; exact Iff.rfl
  | cons s rest ih =>
    intro st
    rw [flushScopes, ih, noteAppearanceIn_shared_other st i s j h]

theorem flushScopes_shared_self (id d : Nat) : ∀ (scopes : List Nat) (st : FinderState),
    alGet st.defScopes id = some d →
    (id ∈ (flushScopes st id scopes).sharedVars ↔
      id ∈ st.sharedVars ∨ ∃ s ∈ scopes, s ≠ d) := by
  intro scopes
  induction scopes with
  | nil =>
    intro st _
    simp [flushScopes]
  | cons s rest ih =>
    intro st hd
    rw [flushScopes, ih _ (by rw [noteAppearanceIn_defScopes]; exact hd),
      noteAppearanceIn_shared_self st id s d hd]
    constructor
    · rintro ((hm | hs) | ⟨s2, hs2, hne⟩)
      · exact Or.inl hm
      · exact Or.inr ⟨s, by simp, hs⟩
      · exact Or.inr ⟨s2, by simp [hs2], hne⟩
    · rintro (hm | ⟨s2, hs2, hne⟩)
      · exact Or.inl (Or.inl hm)
      · simp only [List.mem_cons] at hs2
        cases hs2 with
        | inl heq => subst heq; exact Or.inl (Or.inr hne)
        | inr hmem => exact Or.inr ⟨s2, hmem, hne⟩

end SC
namespace SC

theorem noteAppearance_defScopes (st : FinderState) (i s : Nat) :
    (noteAppearance st i s).defScopes = st.defScopes := by
  unfold noteAppearance
  split
  · rw [noteAppearanceIn_defScopes]
  · rfl

theorem noteAppearance_updateCounts (st : FinderState) (i s : Nat) :
    (noteAppearance st i s).updateCounts = st.updateCounts := by
  unfold noteAppearance
  split
  · rw [noteAppearanceIn_updateCounts]
  · rfl

theorem noteAppearance_pendingGet_other (st : FinderState) (i s j : Nat) (h : i ≠ j) :
    alGet (noteAppearance st i s).pending j = alGet st.pending j := by
  unfold noteAppearance
  split
  · rw [noteAppearanceIn_pending]
  · exact alGet_alSet_ne _ _ _ _ h

theorem noteAppearance_shared_other (st : FinderState) (i s j : Nat) (h : j ≠ i) :
    (j ∈ (noteAppearance st i s).sharedVars ↔ j ∈ st.sharedVars) := by
  unfold noteAppearance
  split
  · exact noteAppearanceIn_shared_other st i s j h
  · exact Iff.rfl

theorem visitDefStep_defScopes (st : FinderState) (i d : Nat) :
    (visitDefStep st i d).defScopes = alSet st.defScopes i d := by
  simp only [visitDefStep]
  split
  · rfl
  · rw [flushScopes_defScopes]

theorem visitDefStep_pendingGet_other (st : FinderState) (i d j : Nat) (h : i ≠ j) :
    alGet (visitDefStep st i d).pending j = alGet st.pending j := by
  simp only [visitDefStep]
  split
  · rfl
  · show alGet (alRemove (flushScopes _ i _).pending i) j = _
    rw [alGet_alRemove_ne _ _ _ h, flushScopes_pending]

theorem visitDefStep_shared_other (st : FinderState) (i d j : Nat) (h : j ≠ i) :
    (j ∈ (visitDefStep st i d).sharedVars ↔ j ∈ st.sharedVars) := by
  simp only [visitDefStep]
  split
  · exact Iff.rfl
  · exact flushScopes_shared_other i j h _ _

theorem visitDefStep_updateCounts (st : FinderState) (i d : Nat) :
    (visitDefStep st i d).updateCounts = st.updateCounts := by
  simp only [visitDefStep]
  split
  · rfl
  · rw [flushScopes_updateCounts]

theorem mem_defScopesOf (t : List VarEvent) (id d : Nat) :
    d ∈ defScopesOf t id ↔ VarEvent.defE id d ∈ t := by
  simp only [defScopesOf, List.mem_filterMap]
  constructor
  · rintro ⟨e, he, hmatch⟩
    cases e with
    | useE i s => simp at hmatch
    | assignE i s => simp at hmatch
    | defE i dd =>
      by_cases hi : i = id
      · subst hi
        simp at hmatch
        subst hmatch
        exact he
      · simp [hi] at hmatch
  · intro h
    exact ⟨VarEvent.defE id d, h, by simp⟩

end SC
namespace SC

theorem alGetD_alSet_self {α : Type} (m : List (Nat × α)) (k : Nat) (v d : α) :
    alGetD (alSet m k v) k d = v := by
  unfold alGetD
  rw [alGet_alSet_self]

theorem alGetD_alSet_ne {α : Type} (m : List (Nat × α)) (k k2 : Nat) (v d : α) (h : k ≠ k2) :
    alGetD (alSet m k v) k2 d = alGetD m k2 d := by
  unfold alGetD
  rw [alGet_alSet_ne _ _ _ _ h]

theorem appearsIn_append_one (t : List VarEvent) (e : VarEvent) (id s : Nat) :
    appearsIn (t ++ [e]) id s ↔ appearsIn t id s ∨ appears e id s = true := by
  constructor
  · rintro ⟨e2, he2, ha⟩
    rcases List.mem_append.mp he2 with h | h
    · exact Or.inl ⟨e2, h, ha⟩
    · simp only [List.mem_singleton] at h
      subst h
      exact Or.inr ha
  · rintro (⟨e2, he2, ha⟩ | ha)
    · exact ⟨e2, List.mem_append_left _ he2, ha⟩
    · exact ⟨e, List.mem_append_right _ (by simp), ha⟩

theorem countAssigns_append_use (t : List VarEvent) (i s id : Nat) :
    countAssigns (t ++ [VarEvent.useE i s]) id = countAssigns t id := by
  unfold countAssigns
  rw [List.filter_append]
  simp

theorem countAssigns_append_def (t : List VarEvent) (i d id : Nat) :
    countAssigns (t ++ [VarEvent.defE i d]) id = countAssigns t id := by
  unfold countAssigns
  rw [List.filter_append]
  simp

theorem countAssigns_append_assign_self (t : List VarEvent) (s id : Nat) :
    countAssigns (t ++ [VarEvent.assignE id s]) id = countAssigns t id + 1 := by
  unfold countAssigns
  rw [List.filter_append]
  simp

theorem countAssigns_append_assign_other (t : List VarEvent) (i s id : Nat) (h : i ≠ id) :
    countAssigns (t ++ [VarEvent.assignE i s]) id = countAssigns t id := by
  unfold countAssigns
  rw [List.filter_append]
  simp [h]

theorem visitDefStep_none (st : FinderState) (i d : Nat) (hp : alGet st.pending i = none) :
    visitDefStep st i d = { st with defScopes := alSet st.defScopes i d } := by
  simp only [visitDefStep]
  have h2 : alGet ({ st with defScopes := alSet st.defScopes i d } : FinderState).pending i
      = none := hp
  rw [h2]

theorem visitDefStep_some (st : FinderState) (i d : Nat) (scopes : List Nat)
    (hp : alGet st.pending i = some scopes) :
    visitDefStep st i d =
      { flushScopes { st with defScopes := alSet st.defScopes i d } i scopes with
          pending :=
            alRemove (flushScopes { st with defScopes := alSet st.defScopes i d } i scopes).pending
              i } := by
  simp only [visitDefStep]
  have h2 : alGet ({ st with defScopes := alSet st.defScopes i d } : FinderState).pending i
      = some scopes := hp
  rw [h2]

end SC
namespace SC

theorem noteAppearance_inv (id : Nat) (t : List VarEvent) (st : FinderState) (i s0 : Nat)
    (e : VarEvent) (he : e = VarEvent.useE i s0 ∨ e = VarEvent.assignE i s0)
    (hinv : FinderInv id t st) :
    (∀ d, VarEvent.defE id d ∈ t ++ [e] →
      alGet (noteAppearance st i s0).defScopes id = some d) ∧
    (∀ d, alGet (noteAppearance st i s0).defScopes id = some d →
      VarEvent.defE id d ∈ t ++ [e]) ∧
    (id ∈ (noteAppearance st i s0).sharedVars ↔
      ∃ d, VarEvent.defE id d ∈ t ++ [e] ∧ ∃ s, appearsIn (t ++ [e]) id s ∧ s ≠ d) ∧
    (¬ hasDef (t ++ [e]) id →
      ∀ s, s ∈ alGetD (noteAppearance st i s0).pending id [] ↔ appearsIn (t ++ [e]) id s) ∧
    (hasDef (t ++ [e]) id → alGet (noteAppearance st i s0).pending id = none) := by
  have hmemdef : ∀ d, (VarEvent.defE id d ∈ t ++ [e] ↔ VarEvent.defE id d ∈ t) := by
    intro d
    rcases he with rfl | rfl <;> simp
  have happ : ∀ s, (appearsIn (t ++ [e]) id s ↔ (appearsIn t id s ∨ (i = id ∧ s0 = s))) := by
    intro s
    rcases he with rfl | rfl <;> (rw [appearsIn_append_one]; simp [appears])
  have hhd : (hasDef (t ++ [e]) id ↔ hasDef t id) := by
    unfold hasDef
    constructor
    · rintro ⟨d, hd⟩
      exact ⟨d, (hmemdef d).mp hd⟩
    · rintro ⟨d, hd⟩
      exact ⟨d, (hmemdef d).mpr hd⟩
  obtain ⟨A1, A2, B, C1, C2, _⟩ := hinv
  by_cases hii : i = id
  · subst hii
    unfold noteAppearance
    by_cases hdef : (alGet st.defScopes i).isSome
    · rw [if_pos hdef]
      obtain ⟨d0, hd0⟩ := Option.isSome_iff_exists.mp hdef
      have hmemd0 : VarEvent.defE i d0 ∈ t := A2 d0 hd0
      have hhasdef : hasDef t i := ⟨d0, hmemd0⟩
      refine ⟨?_, ?_, ?_, ?_, ?_⟩
      · intro d hd
        rw [noteAppearanceIn_defScopes]
        exact A1 d ((hmemdef d).mp hd)
      · intro d hd
        rw [noteAppearanceIn_defScopes] at hd
        exact (hmemdef d).mpr (A2 d hd)
      · rw [noteAppearanceIn_shared_self st i s0 d0 hd0]
        constructor
        · rintro (hm | hne)
          · obtain ⟨d, hd, s, hs, hsne⟩ := B.mp hm
            exact ⟨d, (hmemdef d).mpr hd, s, (happ s).mpr (Or.inl hs), hsne⟩
          · exact ⟨d0, (hmemdef d0).mpr hmemd0, s0, (happ s0).mpr (Or.inr ⟨rfl, rfl⟩), hne⟩
        · rintro ⟨d, hd, s, hs, hsne⟩
          have hd' : VarEvent.defE i d ∈ t := (hmemdef d).mp hd
          have hdd0 : d = d0 := Option.some.inj ((A1 d hd').symm.trans hd0)
          subst hdd0
          rcases (happ s).mp hs with hsapp | ⟨_, rfl⟩
          · exact Or.inl (B.mpr ⟨d, hd', s, hsapp, hsne⟩)
          · exact Or.inr hsne
      · intro hnd
        exact absurd (hhd.mpr hhasdef) hnd
      · intro _
        rw [noteAppearanceIn_pending]
        exact C2 hhasdef
    · rw [if_neg hdef]
      have hnodef : ¬ hasDef t i := by
        rintro ⟨d, hd⟩
        exact hdef (by rw [A1 d hd]; rfl)
      have hget : alGetD (alSet st.pending i (alGetD st.pending i [] ++ [s0])) i []
          = alGetD st.pending i [] ++ [s0] := alGetD_alSet_self _ _ _ _
      refine ⟨?_, ?_, ?_, ?_, ?_⟩
      · intro d hd
        exact A1 d ((hmemdef d).mp hd)
      · intro d hd
        exact (hmemdef d).mpr (A2 d hd)
      · constructor
        · intro hm
          obtain ⟨d, hd, s, hs, hsne⟩ := B.mp hm
          exact ⟨d, (hmemdef d).mpr hd, s, (happ s).mpr (Or.inl hs), hsne⟩
        · rintro ⟨d, hd, _, _, _⟩
          exact absurd ⟨d, (hmemdef d).mp hd⟩ hnodef
      · intro _ s
        constructor
        · intro hs
          have hs' : s ∈ alGetD (alSet st.pending i (alGetD st.pending i [] ++ [s0])) i [] := hs
          rw [hget] at hs'
          rcases List.mem_append.mp hs' with h | h
          · exact (happ s).mpr (Or.inl ((C1 hnodef s).mp h))
          · simp only [List.mem_singleton] at h
            exact (happ s).mpr (Or.inr ⟨rfl, h.symm⟩)
        · intro hs
          rcases (happ s).mp hs with h | ⟨_, rfl⟩
          · have hmem : s ∈ alGetD st.pending i [] := (C1 hnodef s).mpr h
            show s ∈ alGetD (alSet st.pending i (alGetD st.pending i [] ++ [s0])) i []
            rw [hget]
            exact List.mem_append_left _ hmem
          · show s0 ∈ alGetD (alSet st.pending i (alGetD st.pending i [] ++ [s0])) i []
            rw [hget]
            exact List.mem_append_right _ (by simp)
      · intro hd
        exact absurd (hhd.mp hd) hnodef
  · refine ⟨?_, ?_, ?_, ?_, ?_⟩
    · intro d hd
      rw [noteAppearance_defScopes]
      exact A1 d ((hmemdef d).mp hd)
    · intro d hd
      rw [noteAppearance_defScopes] at hd
      exact (hmemdef d).mpr (A2 d hd)
    · rw [noteAppearance_shared_other st i s0 id (fun hh => hii hh.symm), B]
      constructor
      · rintro ⟨d, hd, s, hs, hsne⟩
        exact ⟨d, (hmemdef d).mpr hd, s, (happ s).mpr (Or.inl hs), hsne⟩
      · rintro ⟨d, hd, s, hs, hsne⟩
        refine ⟨d, (hmemdef d).mp hd, s, ?_, hsne⟩
        rcases (happ s).mp hs with h | ⟨heq, _⟩
        · exact h
        · exact absurd heq hii
    · intro hnd s
      have hnd' : ¬ hasDef t id := fun h => hnd (hhd.mpr h)
      have hpg : alGetD (noteAppearance st i s0).pending id ([] : List Nat)
          = alGetD st.pending id [] := by
        unfold alGetD
        rw [noteAppearance_pendingGet_other st i s0 id hii]
      rw [hpg, C1 hnd' s, happ s]
      simp [hii]
    · intro hd
      rw [noteAppearance_pendingGet_other st i s0 id hii]
      exact C2 (hhd.mp hd)

end SC
namespace SC

theorem finderStep_inv (id : Nat) (t : List VarEvent) (st : FinderState) (e : VarEvent)
    (huniq : ∀ d1 d2, VarEvent.defE id d1 ∈ t ++ [e] → VarEvent.defE id d2 ∈ t ++ [e] → d1 = d2)
    (hinv : FinderInv id t st) :
    FinderInv id (t ++ [e]) (finderStep st e) := by
  cases e with
  | useE i s0 =>
    show FinderInv id (t ++ [VarEvent.useE i s0]) (noteAppearance st i s0)
    obtain ⟨A1', A2', B', C1', C2'⟩ :=
      noteAppearance_inv id t st i s0 (VarEvent.useE i s0) (Or.inl rfl) hinv
    refine ⟨A1', A2', B', C1', C2', ?_⟩
    have hcu : (noteAppearance st i s0).updateCounts = st.updateCounts :=
      noteAppearance_updateCounts st i s0
    unfold alGetD
    rw [hcu, countAssigns_append_use]
    exact hinv.2.2.2.2.2
  | assignE i s0 =>
    show FinderInv id (t ++ [VarEvent.assignE i s0]) (visitAssignmentStep st i s0)
    obtain ⟨A1', A2', B', C1', C2'⟩ :=
      noteAppearance_inv id t st i s0 (VarEvent.assignE i s0) (Or.inr rfl) hinv
    refine ⟨A1', A2', B', C1', C2', ?_⟩
    show alGetD
        (alSet (noteAppearance st i s0).updateCounts i
          (alGetD (noteAppearance st i s0).updateCounts i 0 + 1)) id 0
      = countAssigns (t ++ [VarEvent.assignE i s0]) id
    rw [noteAppearance_updateCounts]
    by_cases hii : i = id
    · subst hii
      rw [alGetD_alSet_self, countAssigns_append_assign_self, hinv.2.2.2.2.2]
    · rw [alGetD_alSet_ne _ _ _ _ _ hii, countAssigns_append_assign_other t i s0 id hii]
      exact hinv.2.2.2.2.2
  | defE i d0 =>
    show FinderInv id (t ++ [VarEvent.defE i d0]) (visitDefStep st i d0)
    have hmemdef : ∀ d, (VarEvent.defE id d ∈ t ++ [VarEvent.defE i d0] ↔
        VarEvent.defE id d ∈ t ∨ (id = i ∧ d = d0)) := by
      intro d
      simp
    have happ : ∀ s, (appearsIn (t ++ [VarEvent.defE i d0]) id s ↔ appearsIn t id s) := by
      intro s
      rw [appearsIn_append_one]
      simp [appears]
    have hcnt : countAssigns (t ++ [VarEvent.defE i d0]) id = countAssigns t id :=
      countAssigns_append_def t i d0 id
    obtain ⟨A1, A2, B, C1, C2, D⟩ := hinv
    by_cases hii : i = id
    · subst hii
      have hdall : ∀ d, VarEvent.defE i d ∈ t → d = d0 := by
        intro d hd
        exact huniq d d0 (List.mem_append_left _ hd) (by simp)
      cases hpc : alGet st.pending i with
      | none =>
        rw [visitDefStep_none st i d0 hpc]
        refine ⟨?_, ?_, ?_, ?_, ?_, ?_⟩
        · intro d hd
          rcases (hmemdef d).mp hd with hmem | ⟨_, rfl⟩
          · have hdd : d = d0 := hdall d hmem
            subst hdd
            exact alGet_alSet_self _ _ _
          · exact alGet_alSet_self _ _ _
        · intro d hd
          have hd' : alGet (alSet st.defScopes i d0) i = some d := hd
          rw [alGet_alSet_self] at hd'
          have hdd : d = d0 := (Option.some.inj hd').symm
          exact (hmemdef d).mpr (Or.inr ⟨rfl, hdd⟩)
        · constructor
          · intro hm
            obtain ⟨d, hd, s, hs, hsne⟩ := B.mp hm
            exact ⟨d, (hmemdef d).mpr (Or.inl hd), s, (happ s).mpr hs, hsne⟩
          · rintro ⟨d, hd, s, hs, hsne⟩
            rcases (hmemdef d).mp hd with hmem | ⟨_, rfl⟩
            · exact B.mpr ⟨d, hmem, s, (happ s).mp hs, hsne⟩
            · by_cases hdef : hasDef t i
              · obtain ⟨d1, hd1⟩ := hdef
                have hdd : d1 = d := hdall d1 hd1
                exact B.mpr ⟨d, hdd ▸ hd1, s, (happ s).mp hs, hsne⟩
              · have hC1 := (C1 hdef s).mpr ((happ s).mp hs)
                have hgd : alGetD st.pending i ([] : List Nat) = [] := by
                  unfold alGetD
                  rw [hpc]
                rw [hgd] at hC1
                exact absurd hC1 (List.not_mem_nil s)
        · intro hnd
          exact absurd ⟨d0, (hmemdef d0).mpr (Or.inr ⟨rfl, rfl⟩)⟩ hnd
        · intro _
          exact hpc
        · show alGetD st.updateCounts i 0 = countAssigns (t ++ [VarEvent.defE i d0]) i
          rw [hcnt]
          exact D
      | some scopes =>
        have hnodef : ¬ hasDef t i := by
          intro hdef
          rw [C2 hdef] at hpc
          exact Option.noConfusion hpc
        have hscopes : ∀ s, (s ∈ scopes ↔ appearsIn t i s) := by
          intro s
          have hC1 := C1 hnodef s
          have hgd : alGetD st.pending i ([] : List Nat) = scopes := by
            unfold alGetD
            rw [hpc]
          rw [hgd] at hC1
          exact hC1
        rw [visitDefStep_some st i d0 scopes hpc]
        have hds1 : alGet ({ st with defScopes := alSet st.defScopes i d0 } :
            FinderState).defScopes i = some d0 := alGet_alSet_self _ _ _
        refine ⟨?_, ?_, ?_, ?_, ?_, ?_⟩
        · intro d hd
          show alGet
              (flushScopes { st with defScopes := alSet st.defScopes i d0 } i scopes).defScopes i
            = some d
          rw [flushScopes_defScopes]
          rcases (hmemdef d).mp hd with hmem | ⟨_, rfl⟩
          · have hdd : d = d0 := hdall d hmem
            subst hdd
            exact alGet_alSet_self _ _ _
          · exact alGet_alSet_self _ _ _
        · intro d hd
          have hd2 : alGet
              (flushScopes { st with defScopes := alSet st.defScopes i d0 } i scopes).defScopes i
            = some d := hd
          rw [flushScopes_defScopes] at hd2
          have hd3 : alGet (alSet st.defScopes i d0) i = some d := hd2
          rw [alGet_alSet_self] at hd3
          have hdd : d = d0 := (Option.some.inj hd3).symm
          exact (hmemdef d).mpr (Or.inr ⟨rfl, hdd⟩)
        · show i ∈
              (flushScopes { st with defScopes := alSet st.defScopes i d0 } i scopes).sharedVars ↔
            _
          rw [flushScopes_shared_self i d0 scopes _ hds1]
          have hBfalse : ¬ i ∈ st.sharedVars := by
            intro hm
            obtain ⟨d, hd, _, _, _⟩ := B.mp hm
            exact hnodef ⟨d, hd⟩
          constructor
          · rintro (hm | ⟨s, hs, hsne⟩)
            · exact absurd hm hBfalse
            · exact ⟨d0, (hmemdef d0).mpr (Or.inr ⟨rfl, rfl⟩), s,
                (happ s).mpr ((hscopes s).mp hs), hsne⟩
          · rintro ⟨d, hd, s, hs, hsne⟩
            right
            rcases (hmemdef d).mp hd with hmem | ⟨_, rfl⟩
            · exact absurd ⟨d, hmem⟩ hnodef
            · exact ⟨s, (hscopes s).mpr ((happ s).mp hs), hsne⟩
        · intro hnd
          exact absurd ⟨d0, (hmemdef d0).mpr (Or.inr ⟨rfl, rfl⟩)⟩ hnd
        · intro _
          show alGet
              (alRemove
                (flushScopes { st with defScopes := alSet st.defScopes i d0 } i scopes).pending i)
              i = none
          exact alGet_alRemove_self _ _
        · show alGetD
              (flushScopes { st with defScopes := alSet st.defScopes i d0 } i
                scopes).updateCounts i 0 = _
          rw [flushScopes_updateCounts]
          show alGetD st.updateCounts i 0 = _
          rw [hcnt]
          exact D
    · refine ⟨?_, ?_, ?_, ?_, ?_, ?_⟩
      · intro d hd
        have hd' : VarEvent.defE id d ∈ t := by
          rcases (hmemdef d).mp hd with hmem | ⟨heq, _⟩
          · exact hmem
          · exact absurd heq.symm hii
        rw [visitDefStep_defScopes, alGet_alSet_ne _ _ _ _ hii]
        exact A1 d hd'
      · intro d hd
        rw [visitDefStep_defScopes, alGet_alSet_ne _ _ _ _ hii] at hd
        exact (hmemdef d).mpr (Or.inl (A2 d hd))
      · rw [visitDefStep_shared_other st i d0 id (fun hh => hii hh.symm), B]
        constructor
        · rintro ⟨d, hd, s, hs, hsne⟩
          exact ⟨d, (hmemdef d).mpr (Or.inl hd), s, (happ s).mpr hs, hsne⟩
        · rintro ⟨d, hd, s, hs, hsne⟩
          rcases (hmemdef d).mp hd with hmem | ⟨heq, _⟩
          · exact ⟨d, hmem, s, (happ s).mp hs, hsne⟩
          · exact absurd heq.symm hii
      · intro hnd s
        have hnd' : ¬ hasDef t id := by
          rintro ⟨d, hd⟩
          exact hnd ⟨d, (hmemdef d).mpr (Or.inl hd)⟩
        have hpg : alGetD (visitDefStep st i d0).pending id ([] : List Nat)
            = alGetD st.pending id [] := by
          unfold alGetD
          rw [visitDefStep_pendingGet_other st i d0 id hii]
        rw [hpg, C1 hnd' s, happ s]
      · rintro ⟨d, hd2⟩
        have hd3 : VarEvent.defE id d ∈ t := by
          rcases (hmemdef d).mp hd2 with hmem | ⟨heq, _⟩
          · exact hmem
          · exact absurd heq.symm hii
        rw [visitDefStep_pendingGet_other st i d0 id hii]
        exact C2 ⟨d, hd3⟩
      · rw [show (visitDefStep st i d0).updateCounts = st.updateCounts from
          visitDefStep_updateCounts st i d0, hcnt]
        exact D
end SC
namespace SC

theorem finder_inv (id : Nat) : ∀ t : List VarEvent,
    (∀ d1 d2, VarEvent.defE id d1 ∈ t → VarEvent.defE id d2 ∈ t → d1 = d2) →
    FinderInv id t (runFinder t) := by
  intro t
  induction t using List.reverseRecOn with
  | nil =>
    intro _
    refine ⟨?_, ?_, ?_, ?_, ?_, ?_⟩
    · intro d hd
      exact absurd hd (List.not_mem_nil _)
    · intro d hd
      exact Option.noConfusion hd
    · constructor
      · intro hm
        exact absurd hm (List.not_mem_nil _)
      · rintro ⟨d, hd, _⟩
        exact absurd hd (List.not_mem_nil _)
    · intro _ s
      constructor
      · intro hs
        exact absurd hs (List.not_mem_nil _)
      · rintro ⟨e2, he2, _⟩
        exact absurd he2 (List.not_mem_nil _)
    · rintro ⟨d, hd⟩
      exact absurd hd (List.not_mem_nil _)
    · rfl
  | append_singleton t e ih =>
    intro huniq
    have huniq' : ∀ d1 d2, VarEvent.defE id d1 ∈ t → VarEvent.defE id d2 ∈ t → d1 = d2 := by
      intro d1 d2 h1 h2
      exact huniq d1 d2 (List.mem_append_left _ h1) (List.mem_append_left _ h2)
    have hrun : runFinder (t ++ [e]) = finderStep (runFinder t) e := by
      unfold runFinder
      rw [List.foldl_append]
      rfl
    rw [hrun]
    exact finderStep_inv id t (runFinder t) e huniq (ih huniq')

end SC
namespace SC

/-- **C4.** The `MutableSharedVariableFinder` classifies a variable `id` as
mutable-shared iff the function scope that defines it differs from at least one
function scope in which it appears (is read or written) and its recorded
assignment count exceeds one; `createVisitor` hands exactly the ids so
classified to the `VariableBoxingVisitor` as its `variablesToBox` list. (The
hypothesis says the traversal records one defining scope per variable, as the
visitor produces for a well-scoped program.) -/
theorem mutable_shared_classification (trace : List VarEvent) (id : Nat)
    (huniq : ∀ d1 ∈ defScopesOf trace id, ∀ d2 ∈ defScopesOf trace id, d1 = d2) :
    (id ∈ variablesToBox trace ↔
      ((∃ d, VarEvent.defE id d ∈ trace ∧ ∃ s, appearsIn trace id s ∧ s ≠ d) ∧
        countAssigns trace id > 1)) := by
  have huniq' : ∀ d1 d2, VarEvent.defE id d1 ∈ trace → VarEvent.defE id d2 ∈ trace →
      d1 = d2 := by
    intro d1 d2 h1 h2
    exact huniq d1 ((mem_defScopesOf trace id d1).mpr h1) d2
      ((mem_defScopesOf trace id d2).mpr h2)
  obtain ⟨A1, A2, B, C1, C2, D⟩ := finder_inv id trace huniq'
  unfold variablesToBox mutableSharedVariables
  rw [List.mem_filter]
  constructor
  · rintro ⟨hm, hc⟩
    refine ⟨B.mp hm, ?_⟩
    simp only [decide_eq_true_eq] at hc
    rw [D] at hc
    exact hc
  · rintro ⟨hsh, hc⟩
    refine ⟨B.mpr hsh, ?_⟩
    simp only [decide_eq_true_eq]
    rw [D]
    exact hc

/-- Witness for C4 at the concrete trace `def 1 in scope 0; use 1 from scope 5;
assign 1 from scope 0; assign 1 from scope 5`: variable 1 is boxed, is
defined in scope 0 while appearing from scope 5, and is assigned twice. -/
theorem mutable_shared_classification_witness :
    (∀ d1 ∈ defScopesOf
        [VarEvent.defE 1 0, VarEvent.useE 1 5, VarEvent.assignE 1 0, VarEvent.assignE 1 5] 1,
      ∀ d2 ∈ defScopesOf
        [VarEvent.defE 1 0, VarEvent.useE 1 5, VarEvent.assignE 1 0, VarEvent.assignE 1 5] 1,
      d1 = d2) ∧
    (1 ∈ variablesToBox
        [VarEvent.defE 1 0, VarEvent.useE 1 5, VarEvent.assignE 1 0, VarEvent.assignE 1 5] ↔
      ((∃ d, VarEvent.defE 1 d ∈
            [VarEvent.defE 1 0, VarEvent.useE 1 5, VarEvent.assignE 1 0, VarEvent.assignE 1 5] ∧
          ∃ s, appearsIn
              [VarEvent.defE 1 0, VarEvent.useE 1 5, VarEvent.assignE 1 0, VarEvent.assignE 1 5]
              1 s ∧ s ≠ d) ∧
        countAssigns
          [VarEvent.defE 1 0, VarEvent.useE 1 5, VarEvent.assignE 1 0, VarEvent.assignE 1 5] 1
          > 1)) :=
  ⟨by decide, mutable_shared_classification _ 1 (by decide)⟩

end SC
